import Mathlib

/-!
Verification of the skt-dl media acquisition pipeline.

This file shallowly embeds the core of the `skt_dl` Python package:

* `VideoDownloader._select_format` (src/skt_dl/downloader.py) — format selection;
* `safe_filename` (src/skt_dl/utils.py) — filename sanitisation;
* `retry_on_rate_limit` (src/skt_dl/utils.py) — rate-limit backoff wrapper,
  together with the exception class hierarchy of src/skt_dl/exceptions.py;
* `VideoDownloader.download_video` / `_download_stream` (src/skt_dl/downloader.py) —
  the chunked streaming download with partial-failure cleanup, over an explicit
  filesystem and transport model;
* `ConcurrentDownloader.download_playlist` / `_worker` (src/skt_dl/concurrent.py) —
  a small-step interleaving model of the task queue, the worker pool and the
  result queue;
* `YouTubeAPIExtractor._parse_format` bitrate-split heuristic
  (src/skt_dl/api_extractor.py), with the binary64 arithmetic of
  `int(bitrate * 0.1)` modelled exactly over the rationals.

Machine integers do not occur: Python integers are unbounded, hence `Nat`/`Int`;
Python floats are modelled by exact rational binary64 rounding where they matter.
-/

namespace SktDl

/-! ## Format model

One normalized stream descriptor, as produced by
`YouTubeAPIExtractor._parse_format` (src/skt_dl/api_extractor.py, lines 632-648).
`content_length` is `None` in Python when the provider does not report a size,
hence `Option Nat` here.  Bitrates, dimensions and fps are nonnegative integers. -/

structure Format where
  itag : Nat
  url : String
  container : String
  is_audio : Bool
  is_video : Bool
  quality : String
  audio_bitrate : Nat
  video_bitrate : Nat
  width : Nat
  height : Nat
  content_length : Option Nat
  fps : Nat
deriving DecidableEq

/-- Strict lexicographic order on `(height, bitrate)` pairs, the comparison
underlying Python's tuple sort key `(fmt.get("height", 0), fmt.get("video_bitrate", 0))`. -/
def lexLt (a b : Nat × Nat) : Prop :=
  a.1 < b.1 ∨ (a.1 = b.1 ∧ a.2 < b.2)

/-- Reflexive lexicographic order on `(height, bitrate)` pairs. -/
def lexLe (a b : Nat × Nat) : Prop :=
  a.1 < b.1 ∨ (a.1 = b.1 ∧ a.2 ≤ b.2)

instance (a b : Nat × Nat) : Decidable (lexLt a b) := by
  unfold lexLt; exact inferInstance

instance (a b : Nat × Nat) : Decidable (lexLe a b) := by
  unfold lexLe; exact inferInstance

/-- First element of the list attaining the maximal key: this is the value of
`sorted(lst, key=key, reverse=True)[0]` in Python (`sorted` is stable and
`reverse=True` keeps the original order among equal keys, so index 0 is the
earliest element with maximal key). -/
def pickFirstMax (key : Format → Nat × Nat) : List Format → Option Format
  | [] => none
  | f :: rest =>
    match pickFirstMax key rest with
    | none => some f
    | some g => if lexLt (key f) (key g) then some g else some f

/-- First element of the list attaining the minimal key: the value of
`sorted(lst, key=key)[0]` in Python. -/
def pickFirstMin (key : Format → Nat × Nat) : List Format → Option Format
  | [] => none
  | f :: rest =>
    match pickFirstMin key rest with
    | none => some f
    | some g => if lexLt (key g) (key f) then some g else some f

/-- Parsing of the height out of a quality string, modelling
`quality.lower().endswith("p")` followed by `int(quality[:-1])` in
`VideoDownloader._select_format` (src/skt_dl/downloader.py, lines 246-251).
`int` is modelled on canonical digit strings; on anything else (including the
strings `"best"`, `"worst"`, `"audio"`, `"video"`) the Python code leaves
`quality_height = 0`, as does this function. -/
def digitsValue : List Char → Option Nat
  | [] => none
  | cs =>
    if cs.all Char.isDigit then
      some (cs.foldl (fun n c => 10 * n + (c.toNat - 48)) 0)
    else none

/-- See `digitsValue`. Returns the `quality_height` value of the Python code. -/
def parseQualityHeight (quality : String) : Nat :=
  let cs := quality.toList
  match cs.getLast? with
  | some c =>
    if c.toLower = 'p' then
      match digitsValue cs.dropLast with
      | some n => n
      | none => 0
    else 0
  | none => 0

/-- Model of `VideoDownloader._select_format` (src/skt_dl/downloader.py, lines 203-290),
translated clause by clause:

1. keep only formats with both audio and video (`combined_formats`);
2. if none, fall back to video-only formats sorted by height descending
   (or `None` when there is no video format at all);
3. `"best"`: sort by `(height, video_bitrate)` descending, take the first;
4. `"worst"`: sort ascending, take the first;
5. otherwise parse `"<n>p"`; on an exact height match sort those by
   `video_bitrate` descending; else take the greatest height strictly below;
   else return the best combined format. -/
def selectFormat (formats : List Format) (quality : String) : Option Format :=
  let combined := formats.filter (fun f => f.is_audio && f.is_video)
  if combined.isEmpty then
    let videoFormats := formats.filter (fun f => f.is_video)
    if videoFormats.isEmpty then none
    else pickFirstMax (fun f => (f.height, 0)) videoFormats
  else if quality = "best" then
    pickFirstMax (fun f => (f.height, f.video_bitrate)) combined
  else if quality = "worst" then
    pickFirstMin (fun f => (f.height, f.video_bitrate)) combined
  else
    let qualityHeight := parseQualityHeight quality
    let matching := combined.filter (fun f => f.height == qualityHeight)
    if 0 < qualityHeight ∧ ¬ matching.isEmpty then
      pickFirstMax (fun f => (f.video_bitrate, 0)) matching
    else
      let lower := combined.filter (fun f => decide (f.height < qualityHeight))
      if ¬ lower.isEmpty then
        pickFirstMax (fun f => (f.height, 0)) lower
      else
        pickFirstMax (fun f => (f.height, f.video_bitrate)) combined

/-! ### Order helper lemmas -/

theorem lexLe_refl (a : Nat × Nat) : lexLe a a := by
  unfold lexLe; omega

theorem lexLe_trans {a b c : Nat × Nat} (h₁ : lexLe a b) (h₂ : lexLe b c) : lexLe a c := by
  unfold lexLe at h₁ h₂ ⊢; omega

theorem lexLe_of_lexLt {a b : Nat × Nat} (h : lexLt a b) : lexLe a b := by
  unfold lexLt at h; unfold lexLe; omega

theorem lexLe_of_not_lexLt {a b : Nat × Nat} (h : ¬ lexLt a b) : lexLe b a := by
  unfold lexLt at h; unfold lexLe; omega

theorem pickFirstMax_eq_none {key : Format → Nat × Nat} :
    ∀ {l : List Format}, pickFirstMax key l = none → l = [] := by
  intro l h
  cases l with
  | nil => rfl
  | cons f rest =>
    unfold pickFirstMax at h
    cases hr : pickFirstMax key rest with
    | none => simp [hr] at h
    | some g => rw [hr] at h; by_cases hc : lexLt (key f) (key g) <;> simp [hc] at h

theorem pickFirstMax_mem {key : Format → Nat × Nat} :
    ∀ {l : List Format} {r : Format}, pickFirstMax key l = some r → r ∈ l := by
  intro l
  induction l with
  | nil => intro r h; simp [pickFirstMax] at h
  | cons f rest ih =>
    intro r h
    unfold pickFirstMax at h
    cases hr : pickFirstMax key rest with
    | none => rw [hr] at h; simp at h; simp [h]
    | some g =>
      rw [hr] at h
      by_cases hc : lexLt (key f) (key g)
      · simp [hc] at h; subst h; exact List.mem_cons_of_mem _ (ih hr)
      · simp [hc] at h; simp [h]

theorem pickFirstMax_max {key : Format → Nat × Nat} :
    ∀ {l : List Format} {r : Format}, pickFirstMax key l = some r →
      ∀ g ∈ l, lexLe (key g) (key r) := by
  intro l
  induction l with
  | nil => intro r h; simp [pickFirstMax] at h
  | cons f rest ih =>
    intro r h g hg
    unfold pickFirstMax at h
    cases hr : pickFirstMax key rest with
    | none =>
      rw [hr] at h; simp at h; subst h
      have : rest = [] := pickFirstMax_eq_none hr
      subst this
      simp at hg; subst hg; exact lexLe_refl _
    | some m =>
      rw [hr] at h
      rcases List.mem_cons.mp hg with hgf | hgr
      · subst hgf
        by_cases hc : lexLt (key g) (key m)
        · simp [hc] at h; subst h; exact lexLe_of_lexLt hc
        · simp [hc] at h; subst h; exact lexLe_refl _
      · by_cases hc : lexLt (key f) (key m)
        · simp [hc] at h; subst h; exact ih hr g hgr
        · simp [hc] at h; subst h
          exact lexLe_trans (ih hr g hgr) (lexLe_of_not_lexLt hc)

theorem pickFirstMin_eq_none {key : Format → Nat × Nat} :
    ∀ {l : List Format}, pickFirstMin key l = none → l = [] := by
  intro l h
  cases l with
  | nil => rfl
  | cons f rest =>
    unfold pickFirstMin at h
    cases hr : pickFirstMin key rest with
    | none => simp [hr] at h
    | some g => rw [hr] at h; by_cases hc : lexLt (key g) (key f) <;> simp [hc] at h

/-! ### Branch-reduction lemmas for `selectFormat` -/

theorem selectFormat_best (formats : List Format)
    (h : formats.filter (fun f => f.is_audio && f.is_video) ≠ []) :
    selectFormat formats "best" =
      pickFirstMax (fun f => (f.height, f.video_bitrate))
        (formats.filter (fun f => f.is_audio && f.is_video)) := by
  unfold selectFormat
  simp [List.isEmpty_iff, h]

theorem selectFormat_other (formats : List Format) (quality : String)
    (h : formats.filter (fun f => f.is_audio && f.is_video) ≠ [])
    (hb : quality ≠ "best") (hw : quality ≠ "worst") :
    selectFormat formats quality =
      (let combined := formats.filter (fun f => f.is_audio && f.is_video)
       let qualityHeight := parseQualityHeight quality
       let matching := combined.filter (fun f => f.height == qualityHeight)
       if 0 < qualityHeight ∧ ¬ matching.isEmpty then
         pickFirstMax (fun f => (f.video_bitrate, 0)) matching
       else
         let lower := combined.filter (fun f => decide (f.height < qualityHeight))
         if ¬ lower.isEmpty then
           pickFirstMax (fun f => (f.height, 0)) lower
         else
           pickFirstMax (fun f => (f.height, f.video_bitrate)) combined) := by
  unfold selectFormat
  simp [List.isEmpty_iff, h, hb, hw]

/-- C3: over a format set with at least one combined (audio+video) descriptor,
`_select_format(formats, "best")` returns a combined descriptor whose
`(height, video_bitrate)` key is lexicographically maximal among the combined
descriptors. -/
theorem select_best_lex_max (formats : List Format)
    (h : ∃ f ∈ formats, f.is_audio = true ∧ f.is_video = true) :
    ∃ r, selectFormat formats "best" = some r ∧
      r ∈ formats ∧ r.is_audio = true ∧ r.is_video = true ∧
      ∀ g ∈ formats, g.is_audio = true → g.is_video = true →
        lexLe (g.height, g.video_bitrate) (r.height, r.video_bitrate) := by
  obtain ⟨f, hf, ha, hv⟩ := h
  have hfc : f ∈ formats.filter (fun f => f.is_audio && f.is_video) := by
    rw [List.mem_filter]; exact ⟨hf, by simp [ha, hv]⟩
  have hne : formats.filter (fun f => f.is_audio && f.is_video) ≠ [] := by
    intro he; rw [he] at hfc; simp at hfc
  rw [selectFormat_best formats hne]
  cases hp : pickFirstMax (fun f => (f.height, f.video_bitrate))
      (formats.filter (fun f => f.is_audio && f.is_video)) with
  | none => exact absurd (pickFirstMax_eq_none hp) hne
  | some r =>
    have hrmem := pickFirstMax_mem hp
    rw [List.mem_filter] at hrmem
    refine ⟨r, rfl, hrmem.1, ?_, ?_, ?_⟩
    · have := hrmem.2; simp at this; exact this.1
    · have := hrmem.2; simp at this; exact this.2
    · intro g hg hga hgv
      have hgc : g ∈ formats.filter (fun f => f.is_audio && f.is_video) := by
        rw [List.mem_filter]; exact ⟨hg, by simp [hga, hgv]⟩
      exact pickFirstMax_max hp g hgc

/-- A sample combined 360p descriptor, used to instantiate theorems. -/
def sample360 : Format :=
  { itag := 18, url := "u", container := "mp4", is_audio := true, is_video := true,
    quality := "360p", audio_bitrate := 9600, video_bitrate := 86400, width := 640,
    height := 360, content_length := none, fps := 30 }

/-- A sample combined 720p descriptor, used to instantiate theorems. -/
def sample720 : Format :=
  { itag := 22, url := "v", container := "mp4", is_audio := true, is_video := true,
    quality := "720p", audio_bitrate := 19200, video_bitrate := 200000, width := 1280,
    height := 720, content_length := none, fps := 30 }

/-- C3 witness: a two-element format set on which the theorem's hypothesis holds. -/
theorem select_best_lex_max_witness :
    ∃ r, selectFormat [sample360, sample720] "best" = some r ∧
      r ∈ [sample360, sample720] ∧ r.is_audio = true ∧ r.is_video = true ∧
      ∀ g ∈ [sample360, sample720], g.is_audio = true → g.is_video = true →
        lexLe (g.height, g.video_bitrate) (r.height, r.video_bitrate) :=
  select_best_lex_max _ ⟨sample360, List.mem_cons_self _ _, rfl, rfl⟩

/-- C4: for a quality string parsing to a positive height `n`, over a format set
with at least one combined descriptor, `_select_format` returns the maximal
`video_bitrate` among combined descriptors of height exactly `n` when one exists;
otherwise the greatest combined height strictly below `n`; otherwise the best
combined descriptor. -/
theorem select_exact_height (formats : List Format) (q : String) (n : Nat)
    (hcomb : ∃ f ∈ formats, f.is_audio = true ∧ f.is_video = true)
    (hq : parseQualityHeight q = n) (hn : 0 < n) :
    ∃ r, selectFormat formats q = some r ∧
      r ∈ formats ∧ r.is_audio = true ∧ r.is_video = true ∧
      ((∃ f ∈ formats, f.is_audio = true ∧ f.is_video = true ∧ f.height = n) →
        r.height = n ∧
        ∀ g ∈ formats, g.is_audio = true → g.is_video = true → g.height = n →
          g.video_bitrate ≤ r.video_bitrate) ∧
      ((¬ ∃ f ∈ formats, f.is_audio = true ∧ f.is_video = true ∧ f.height = n) →
        (∃ f ∈ formats, f.is_audio = true ∧ f.is_video = true ∧ f.height < n) →
        r.height < n ∧
        ∀ g ∈ formats, g.is_audio = true → g.is_video = true → g.height < n →
          g.height ≤ r.height) ∧
      ((¬ ∃ f ∈ formats, f.is_audio = true ∧ f.is_video = true ∧ f.height = n) →
        (¬ ∃ f ∈ formats, f.is_audio = true ∧ f.is_video = true ∧ f.height < n) →
        ∀ g ∈ formats, g.is_audio = true → g.is_video = true →
          lexLe (g.height, g.video_bitrate) (r.height, r.video_bitrate)) := by
  obtain ⟨f0, hf0, ha0, hv0⟩ := hcomb
  have hf0c : f0 ∈ formats.filter (fun f => f.is_audio && f.is_video) := by
    rw [List.mem_filter]; exact ⟨hf0, by simp [ha0, hv0]⟩
  have hne : formats.filter (fun f => f.is_audio && f.is_video) ≠ [] := by
    intro he; rw [he] at hf0c; simp at hf0c
  have hb : q ≠ "best" := by
    intro he; subst he
    rw [show parseQualityHeight "best" = 0 by decide] at hq; omega
  have hw : q ≠ "worst" := by
    intro he; subst he
    rw [show parseQualityHeight "worst" = 0 by decide] at hq; omega
  have memC : ∀ g : Format, g ∈ formats.filter (fun f => f.is_audio && f.is_video) ↔
      (g ∈ formats ∧ g.is_audio = true ∧ g.is_video = true) := by
    intro g; rw [List.mem_filter]; simp
  have memM : ∀ g : Format,
      g ∈ (formats.filter (fun f => f.is_audio && f.is_video)).filter
            (fun f => f.height == n) ↔
      (g ∈ formats ∧ g.is_audio = true ∧ g.is_video = true ∧ g.height = n) := by
    intro g; rw [List.mem_filter, memC]; simp [and_assoc]
  have memL : ∀ g : Format,
      g ∈ (formats.filter (fun f => f.is_audio && f.is_video)).filter
            (fun f => decide (f.height < n)) ↔
      (g ∈ formats ∧ g.is_audio = true ∧ g.is_video = true ∧ g.height < n) := by
    intro g; rw [List.mem_filter, memC]; simp [and_assoc]
  rw [selectFormat_other formats q hne hb hw]
  simp only [hq]
  cases hm : ((formats.filter (fun f => f.is_audio && f.is_video)).filter
      (fun f => f.height == n)).isEmpty with
  | false =>
    rw [if_pos (by simp [hn, hm])]
    cases hp : pickFirstMax (fun f => (f.video_bitrate, 0))
        ((formats.filter (fun f => f.is_audio && f.is_video)).filter
          (fun f => f.height == n)) with
    | none =>
      exact absurd (congrArg List.isEmpty (pickFirstMax_eq_none hp)) (by rw [hm]; simp)
    | some r =>
      have hrM := (memM r).mp (pickFirstMax_mem hp)
      refine ⟨r, rfl, hrM.1, hrM.2.1, hrM.2.2.1, ?_, ?_, ?_⟩
      · intro _
        refine ⟨hrM.2.2.2, ?_⟩
        intro g hg hga hgv hgh
        have := pickFirstMax_max hp g ((memM g).mpr ⟨hg, hga, hgv, hgh⟩)
        unfold lexLe at this; omega
      · intro hno
        exact absurd ⟨r, hrM.1, hrM.2.1, hrM.2.2.1, hrM.2.2.2⟩ hno
      · intro hno _
        exact absurd ⟨r, hrM.1, hrM.2.1, hrM.2.2.1, hrM.2.2.2⟩ hno
  | true =>
    have hMnil : (formats.filter (fun f => f.is_audio && f.is_video)).filter
        (fun f => f.height == n) = [] := by
      rwa [List.isEmpty_iff] at hm
    have hnoExact : ¬ ∃ f ∈ formats, f.is_audio = true ∧ f.is_video = true ∧ f.height = n := by
      rintro ⟨f, hf, hfa, hfv, hfh⟩
      have : f ∈ (formats.filter (fun f => f.is_audio && f.is_video)).filter
          (fun f => f.height == n) := (memM f).mpr ⟨hf, hfa, hfv, hfh⟩
      rw [hMnil] at this; simp at this
    rw [if_neg (by simp [hm])]
    cases hl : ((formats.filter (fun f => f.is_audio && f.is_video)).filter
        (fun f => decide (f.height < n))).isEmpty with
    | false =>
      rw [if_pos (by simp [hl])]
      cases hp : pickFirstMax (fun f => (f.height, 0))
          ((formats.filter (fun f => f.is_audio && f.is_video)).filter
            (fun f => decide (f.height < n))) with
      | none =>
        exact absurd (congrArg List.isEmpty (pickFirstMax_eq_none hp)) (by rw [hl]; simp)
      | some r =>
        have hrL := (memL r).mp (pickFirstMax_mem hp)
        refine ⟨r, rfl, hrL.1, hrL.2.1, hrL.2.2.1, ?_, ?_, ?_⟩
        · intro hex; exact absurd hex hnoExact
        · intro _ _
          refine ⟨hrL.2.2.2, ?_⟩
          intro g hg hga hgv hgh
          have := pickFirstMax_max hp g ((memL g).mpr ⟨hg, hga, hgv, hgh⟩)
          unfold lexLe at this; omega
        · intro _ hno
          exact absurd ⟨r, hrL.1, hrL.2.1, hrL.2.2.1, hrL.2.2.2⟩ hno
    | true =>
      have hLnil : (formats.filter (fun f => f.is_audio && f.is_video)).filter
          (fun f => decide (f.height < n)) = [] := by
        rwa [List.isEmpty_iff] at hl
      have hnoLower : ¬ ∃ f ∈ formats, f.is_audio = true ∧ f.is_video = true ∧ f.height < n := by
        rintro ⟨f, hf, hfa, hfv, hfh⟩
        have : f ∈ (formats.filter (fun f => f.is_audio && f.is_video)).filter
            (fun f => decide (f.height < n)) := (memL f).mpr ⟨hf, hfa, hfv, hfh⟩
        rw [hLnil] at this; simp at this
      rw [if_neg (by simp [hl])]
      cases hp : pickFirstMax (fun f => (f.height, f.video_bitrate))
          (formats.filter (fun f => f.is_audio && f.is_video)) with
      | none => exact absurd (pickFirstMax_eq_none hp) hne
      | some r =>
        have hrC := (memC r).mp (pickFirstMax_mem hp)
        refine ⟨r, rfl, hrC.1, hrC.2.1, hrC.2.2, ?_, ?_, ?_⟩
        · intro hex; exact absurd hex hnoExact
        · intro _ hex; exact absurd hex hnoLower
        · intro _ _
          intro g hg hga hgv
          exact pickFirstMax_max hp g ((memC g).mpr ⟨hg, hga, hgv⟩)

/-- A sample combined 480p descriptor, used to instantiate theorems. -/
def sample480 : Format :=
  { itag := 35, url := "w", container := "flv", is_audio := true, is_video := true,
    quality := "480p", audio_bitrate := 12800, video_bitrate := 100000, width := 854,
    height := 480, content_length := none, fps := 30 }

/-- A sample combined 1080p descriptor, used to instantiate theorems. -/
def sample1080 : Format :=
  { itag := 37, url := "x", container := "mp4", is_audio := true, is_video := true,
    quality := "1080p", audio_bitrate := 19200, video_bitrate := 400000, width := 1920,
    height := 1080, content_length := none, fps := 30 }

/-- C4 witness: `"720p"` over `{480p, 1080p}`, exercising the closest-below branch. -/
theorem select_exact_height_witness :
    parseQualityHeight "720p" = 720 ∧
    (∃ r, selectFormat [sample480, sample1080] "720p" = some r ∧
      r ∈ [sample480, sample1080] ∧ r.is_audio = true ∧ r.is_video = true ∧
      ((∃ f ∈ [sample480, sample1080],
          f.is_audio = true ∧ f.is_video = true ∧ f.height = 720) →
        r.height = 720 ∧
        ∀ g ∈ [sample480, sample1080],
          g.is_audio = true → g.is_video = true → g.height = 720 →
            g.video_bitrate ≤ r.video_bitrate) ∧
      ((¬ ∃ f ∈ [sample480, sample1080],
          f.is_audio = true ∧ f.is_video = true ∧ f.height = 720) →
        (∃ f ∈ [sample480, sample1080],
          f.is_audio = true ∧ f.is_video = true ∧ f.height < 720) →
        r.height < 720 ∧
        ∀ g ∈ [sample480, sample1080],
          g.is_audio = true → g.is_video = true → g.height < 720 →
            g.height ≤ r.height) ∧
      ((¬ ∃ f ∈ [sample480, sample1080],
          f.is_audio = true ∧ f.is_video = true ∧ f.height = 720) →
        (¬ ∃ f ∈ [sample480, sample1080],
          f.is_audio = true ∧ f.is_video = true ∧ f.height < 720) →
        ∀ g ∈ [sample480, sample1080], g.is_audio = true → g.is_video = true →
          lexLe (g.height, g.video_bitrate) (r.height, r.video_bitrate))) :=
  ⟨by decide,
   select_exact_height [sample480, sample1080] "720p" 720
     ⟨sample480, List.mem_cons_self _ _, rfl, rfl⟩ (by decide) (by decide)⟩

/-- An audio-only descriptor with a high audio bitrate, used for the C6 failing input. -/
def audioOnly160 : Format :=
  { itag := 140, url := "y", container := "m4a", is_audio := true, is_video := false,
    quality := "160kbps", audio_bitrate := 160000, video_bitrate := 0, width := 0,
    height := 0, content_length := none, fps := 30 }

/-- C6: the code at the failing input. The CLI maps `--audio-only` (documented as
"Download audio only", src/skt_dl/cli.py lines 58 and 258-259) to `quality="audio"`,
but `_select_format` has no audio branch: `"audio"` does not end in `"p"`, so
`quality_height` stays 0 and selection falls through to the best *combined* format.
The audio-only descriptor with the highest audio bitrate is never chosen. -/
theorem select_audio_ignores_audio_only :
    selectFormat [audioOnly160, sample360] "audio" = some sample360 ∧
    sample360.is_video = true ∧
    audioOnly160.is_audio = true ∧ audioOnly160.is_video = false ∧
    sample360.audio_bitrate < audioOnly160.audio_bitrate := by
  refine ⟨by decide, rfl, rfl, rfl, by decide⟩

/-! ## `safe_filename` (src/skt_dl/utils.py, lines 69-85)

The Python function is three regex/string steps on the title:
`re.sub(r'[\\/*?:"<>|]', "", title)`, then `re.sub(r'\s+', ' ', ...)`,
then `.strip()`, then `[:100]`.  Strings are modelled as `List Char`. -/

/-- The character class of `re.sub(r'[\\/*?:"<>|]', "", title)`. -/
def forbiddenChars : List Char := ['\\', '/', '*', '?', ':', '"', '<', '>', '|']

/-- Python's `\s` on ASCII: space, tab, newline, carriage return, vertical tab,
form feed. -/
def pyIsSpace (c : Char) : Bool :=
  c == ' ' || c == '\t' || c == '\n' || c == '\r' || c == Char.ofNat 11 || c == Char.ofNat 12

/-- Model of `re.sub(r'\s+', ' ', s)`: every maximal run of whitespace becomes one space.
The recursion emits the single `' '` at the last character of each run. -/
def collapseWhitespace : List Char → List Char
  | [] => []
  | c :: rest =>
    if pyIsSpace c then
      match rest with
      | [] => [' ']
      | d :: _ =>
        if pyIsSpace d then collapseWhitespace rest
        else ' ' :: collapseWhitespace rest
    else c :: collapseWhitespace rest

/-- Removal of trailing whitespace, the right half of Python's `.strip()`. -/
def rstripWs (l : List Char) : List Char := (l.reverse.dropWhile pyIsSpace).reverse

/-- Python's `.strip()`: whitespace removed from both ends. -/
def pyStrip (l : List Char) : List Char := rstripWs (l.dropWhile pyIsSpace)

/-- Model of `safe_filename` (src/skt_dl/utils.py): remove forbidden characters, collapse
whitespace runs, strip, then truncate to 100 characters. -/
def safeFilename (title : List Char) : List Char :=
  (pyStrip (collapseWhitespace (title.filter (fun c => !(forbiddenChars.contains c))))).take 100

theorem dropWhile_head_false {p : Char → Bool} :
    ∀ {l : List Char} {a : Char} {t : List Char},
      List.dropWhile p l = a :: t → p a = false := by
  intro l
  induction l with
  | nil => intro a t h; simp [List.dropWhile] at h
  | cons c rest ih =>
    intro a t h
    rw [List.dropWhile] at h
    cases hc : p c with
    | true => rw [hc] at h; exact ih h
    | false => rw [hc] at h; simp at h; rw [← h.1]; exact hc

theorem collapse_ws_nil {a : Char} (ha : pyIsSpace a = true) :
    collapseWhitespace [a] = [' '] := by
  simp [collapseWhitespace, ha]

theorem collapse_ws_ws {a d : Char} {t : List Char}
    (ha : pyIsSpace a = true) (hd : pyIsSpace d = true) :
    collapseWhitespace (a :: d :: t) = collapseWhitespace (d :: t) := by
  simp [collapseWhitespace, ha, hd]

theorem collapse_ws_nonws {a d : Char} {t : List Char}
    (ha : pyIsSpace a = true) (hd : pyIsSpace d = false) :
    collapseWhitespace (a :: d :: t) = ' ' :: collapseWhitespace (d :: t) := by
  simp [collapseWhitespace, ha, hd]

theorem collapse_nonws {a : Char} {rest : List Char} (ha : pyIsSpace a = false) :
    collapseWhitespace (a :: rest) = a :: collapseWhitespace rest := by
  cases rest with
  | nil => simp [collapseWhitespace, ha]
  | cons d t => simp [collapseWhitespace, ha]

theorem collapseWhitespace_mem :
    ∀ {l : List Char} {c : Char}, c ∈ collapseWhitespace l → c ∈ l ∨ c = ' ' := by
  intro l
  induction l with
  | nil => intro c h; simp [collapseWhitespace] at h
  | cons a rest ih =>
    intro c h
    cases ha : pyIsSpace a with
    | true =>
      cases rest with
      | nil => rw [collapse_ws_nil ha] at h; simp at h; right; exact h
      | cons d t =>
        cases hd : pyIsSpace d with
        | true =>
          rw [collapse_ws_ws ha hd] at h
          rcases ih h with h1 | h2
          · left; exact List.mem_cons_of_mem _ h1
          · right; exact h2
        | false =>
          rw [collapse_ws_nonws ha hd] at h
          rcases List.mem_cons.mp h with h1 | h2
          · right; exact h1
          · rcases ih h2 with h3 | h4
            · left; exact List.mem_cons_of_mem _ h3
            · right; exact h4
    | false =>
      rw [collapse_nonws ha] at h
      rcases List.mem_cons.mp h with h1 | h2
      · left; rw [h1]; exact List.mem_cons_self _ _
      · rcases ih h2 with h3 | h4
        · left; exact List.mem_cons_of_mem _ h3
        · right; exact h4

theorem collapseWhitespace_space_mem :
    ∀ {l : List Char} {c : Char}, c ∈ collapseWhitespace l → pyIsSpace c = true → c = ' ' := by
  intro l
  induction l with
  | nil => intro c h; simp [collapseWhitespace] at h
  | cons a rest ih =>
    intro c h hws
    cases ha : pyIsSpace a with
    | true =>
      cases rest with
      | nil => rw [collapse_ws_nil ha] at h; simpa using h
      | cons d t =>
        cases hd : pyIsSpace d with
        | true => rw [collapse_ws_ws ha hd] at h; exact ih h hws
        | false =>
          rw [collapse_ws_nonws ha hd] at h
          rcases List.mem_cons.mp h with h1 | h2
          · exact h1
          · exact ih h2 hws
    | false =>
      rw [collapse_nonws ha] at h
      rcases List.mem_cons.mp h with h1 | h2
      · rw [h1] at hws; rw [hws] at ha; exact absurd ha (by simp)
      · exact ih h2 hws

/-- In the collapsed list, no two adjacent characters are both whitespace, and a
whitespace head can only come from a whitespace head of the input. -/
theorem collapseWhitespace_chain :
    ∀ l : List Char,
      List.Chain' (fun a b => ¬(pyIsSpace a = true ∧ pyIsSpace b = true))
        (collapseWhitespace l) ∧
      (∀ d, (collapseWhitespace l).head? = some d → pyIsSpace d = true →
        ∃ c rest, l = c :: rest ∧ pyIsSpace c = true) := by
  intro l
  induction l with
  | nil => exact ⟨List.chain'_nil, by intro d h; simp [collapseWhitespace] at h⟩
  | cons a rest ih =>
    cases ha : pyIsSpace a with
    | true =>
      cases rest with
      | nil =>
        rw [collapse_ws_nil ha]
        refine ⟨List.chain'_singleton _, ?_⟩
        intro d _ _; exact ⟨a, [], rfl, ha⟩
      | cons d t =>
        cases hd : pyIsSpace d with
        | true =>
          rw [collapse_ws_ws ha hd]
          exact ⟨ih.1, fun e _ _ => ⟨a, d :: t, rfl, ha⟩⟩
        | false =>
          rw [collapse_ws_nonws ha hd]
          refine ⟨List.chain'_cons'.mpr ⟨?_, ih.1⟩, fun e _ _ => ⟨a, d :: t, rfl, ha⟩⟩
          intro y hy hcon
          obtain ⟨c, r, hcr, hc⟩ := ih.2 y hy hcon.2
          have : c = d := by
            have h2 := congrArg List.head? hcr
            simp at h2
            exact h2.symm
          rw [this] at hc
          rw [hc] at hd
          exact absurd hd (by simp)
    | false =>
      rw [collapse_nonws ha]
      refine ⟨List.chain'_cons'.mpr ⟨?_, ih.1⟩, ?_⟩
      · intro y _ hcon
        rw [hcon.1] at ha
        exact absurd ha (by simp)
      · intro d hh hws
        simp at hh
        rw [hh] at ha
        rw [hws] at ha
        exact absurd ha (by simp)

theorem pyStrip_within (l : List Char) : pyStrip l <:+: l := by
  unfold pyStrip rstripWs
  rw [List.infix_iff_prefix_suffix]
  refine ⟨l.dropWhile pyIsSpace, ?_, List.dropWhile_suffix _⟩
  rw [← List.reverse_suffix]
  simpa using List.dropWhile_suffix pyIsSpace (l := (l.dropWhile pyIsSpace).reverse)

theorem pyStrip_head {l : List Char} {c : Char} (h : (pyStrip l).head? = some c) :
    pyIsSpace c = false := by
  unfold pyStrip rstripWs at h
  have hpre : ((l.dropWhile pyIsSpace).reverse.dropWhile pyIsSpace).reverse <+:
      l.dropWhile pyIsSpace := by
    rw [← List.reverse_suffix]; simpa using List.dropWhile_suffix pyIsSpace
  obtain ⟨t, ht⟩ := hpre
  cases hs : ((l.dropWhile pyIsSpace).reverse.dropWhile pyIsSpace).reverse with
  | nil => rw [hs] at h; simp at h
  | cons x xs =>
    rw [hs] at h ht
    simp at h
    have : l.dropWhile pyIsSpace = x :: (xs ++ t) := by rw [← ht]; simp
    rw [← h]
    exact dropWhile_head_false this

theorem pyStrip_getLast {l : List Char} {c : Char} (h : (pyStrip l).getLast? = some c) :
    pyIsSpace c = false := by
  unfold pyStrip rstripWs at h
  rw [List.getLast?_reverse] at h
  cases hs : (l.dropWhile pyIsSpace).reverse.dropWhile pyIsSpace with
  | nil => rw [hs] at h; simp at h
  | cons x xs =>
    rw [hs] at h; simp at h
    rw [← h]
    exact dropWhile_head_false hs

/-- C10 (amended): `safe_filename` output contains no forbidden character, has no
two adjacent whitespace characters (and any whitespace in it is a plain space),
does not start with whitespace, and is at most 100 characters long.  Trailing
whitespace is excluded only when the result is shorter than 100 characters: the
`[:100]` truncation runs after `.strip()`, so a cut at position 100 can expose a
space (see the counterexample theorem). -/
theorem safe_filename_sanitizes (title : List Char) :
    (∀ c ∈ safeFilename title, c ∉ forbiddenChars) ∧
    List.Chain' (fun a b => ¬(pyIsSpace a = true ∧ pyIsSpace b = true)) (safeFilename title) ∧
    (∀ c ∈ safeFilename title, pyIsSpace c = true → c = ' ') ∧
    (∀ c, (safeFilename title).head? = some c → pyIsSpace c = false) ∧
    (safeFilename title).length ≤ 100 ∧
    ((safeFilename title).length < 100 →
      ∀ c, (safeFilename title).getLast? = some c → pyIsSpace c = false) := by
  have hmemC : ∀ c ∈ safeFilename title,
      c ∈ collapseWhitespace (title.filter (fun c => !(forbiddenChars.contains c))) := by
    intro c hc
    unfold safeFilename at hc
    exact (pyStrip_within _).subset ((List.take_prefix _ _).subset hc)
  refine ⟨?_, ?_, ?_, ?_, ?_, ?_⟩
  · intro c hc hforb
    rcases collapseWhitespace_mem (hmemC c hc) with h1 | h2
    · rw [List.mem_filter] at h1
      have := h1.2
      simp at this
      exact absurd hforb ((List.elem_iff.not).mp (by simpa using this))
    · rw [h2] at hforb; exact absurd hforb (by decide)
  · have hchain := (collapseWhitespace_chain
      (title.filter (fun c => !(forbiddenChars.contains c)))).1
    unfold safeFilename
    exact hchain.infix (((List.take_prefix _ _).isInfix).trans (pyStrip_within _))
  · intro c hc hws
    exact collapseWhitespace_space_mem (hmemC c hc) hws
  · intro c hc
    unfold safeFilename at hc
    cases hs : pyStrip (collapseWhitespace
        (title.filter (fun c => !(forbiddenChars.contains c)))) with
    | nil => rw [hs] at hc; simp at hc
    | cons x xs =>
      rw [hs] at hc
      simp [List.take_succ_cons] at hc
      rw [← hc]
      exact pyStrip_head (by rw [hs]; rfl)
  · exact List.length_take_le _ _
  · intro hlen c hc
    unfold safeFilename at hlen hc
    rw [List.length_take] at hlen
    have hslen : (pyStrip (collapseWhitespace
        (title.filter (fun c => !(forbiddenChars.contains c))))).length < 100 := by
      omega
    rw [List.take_of_length_le (Nat.le_of_lt hslen)] at hc
    exact pyStrip_getLast hc

/-- C10 witness: a title with a forbidden character and a whitespace run. -/
theorem safe_filename_sanitizes_witness :
    (∀ c ∈ safeFilename ['a', ' ', '\t', 'b', '/', 'c'], c ∉ forbiddenChars) ∧
    List.Chain' (fun a b => ¬(pyIsSpace a = true ∧ pyIsSpace b = true))
      (safeFilename ['a', ' ', '\t', 'b', '/', 'c']) ∧
    (∀ c ∈ safeFilename ['a', ' ', '\t', 'b', '/', 'c'], pyIsSpace c = true → c = ' ') ∧
    (∀ c, (safeFilename ['a', ' ', '\t', 'b', '/', 'c']).head? = some c →
      pyIsSpace c = false) ∧
    (safeFilename ['a', ' ', '\t', 'b', '/', 'c']).length ≤ 100 ∧
    ((safeFilename ['a', ' ', '\t', 'b', '/', 'c']).length < 100 →
      ∀ c, (safeFilename ['a', ' ', '\t', 'b', '/', 'c']).getLast? = some c →
        pyIsSpace c = false) :=
  safe_filename_sanitizes ['a', ' ', '\t', 'b', '/', 'c']

/-- C10 counterexample: on 99 `'a'`s followed by `" b"`, the stripped name is 101
characters, and `[:100]` cuts right after the separating space, leaving a
trailing whitespace character in the returned filename. -/
theorem safe_filename_truncation_trailing_space :
    (safeFilename (List.replicate 99 'a' ++ [' ', 'b'])).getLast? = some ' ' ∧
    pyIsSpace ' ' = true ∧
    (safeFilename (List.replicate 99 'a' ++ [' ', 'b'])).length = 100 := by
  refine ⟨by decide, rfl, by decide⟩

/-! ## Exception classes and `retry_on_rate_limit`

`src/skt_dl/exceptions.py` declares the class hierarchy; `retry_on_rate_limit`
(src/skt_dl/utils.py, lines 140-168) retries a wrapped callable on
`RateLimitError` with exponential backoff and jitter, re-raising the last
rate-limit error once `MAX_RATE_LIMIT_RETRIES` is exceeded.  A callable is
modelled as a map from attempt number to its outcome; `time.time() % 1` jitter
is an arbitrary sequence of rationals in `[0, 1)`; `time.sleep` calls are
collected in a list. -/

/-- The exception classes of src/skt_dl/exceptions.py (plus built-in `Exception`). -/
inductive ExcClass
  | exc
  | extractionError
  | downloadError
  | rateLimitError
  | videoUnavailableError
  | playlistUnavailableError
  | unsupportedStreamError
deriving DecidableEq

/-- The ancestor chain of each class, read off the `class C(B):` headers of
src/skt_dl/exceptions.py: `ExtractionError`, `DownloadError` and
`RateLimitError` all derive directly from `Exception`; the three unavailability
errors derive from `ExtractionError`. -/
def classAncestry : ExcClass → List ExcClass
  | .exc => [.exc]
  | .extractionError => [.extractionError, .exc]
  | .downloadError => [.downloadError, .exc]
  | .rateLimitError => [.rateLimitError, .exc]
  | .videoUnavailableError => [.videoUnavailableError, .extractionError, .exc]
  | .playlistUnavailableError => [.playlistUnavailableError, .extractionError, .exc]
  | .unsupportedStreamError => [.unsupportedStreamError, .extractionError, .exc]

/-- Python `isinstance` on the class chain: `except D` catches class `c` iff
`d` occurs in the ancestry of `c`. -/
def isSubclassOf (c d : ExcClass) : Bool := (classAncestry c).contains d

/-- Outcome of one attempt of the wrapped callable. -/
inductive Att
  | succ (v : Nat)
  | raiseExc (c : ExcClass)

/-- Constant `RATE_LIMIT_INITIAL_DELAY` (src/skt_dl/constants.py, line 54). -/
def RATE_LIMIT_INITIAL_DELAY : ℚ := 5

/-- Constant `MAX_RATE_LIMIT_RETRIES` (src/skt_dl/constants.py, line 57). -/
def MAX_RATE_LIMIT_RETRIES : Nat := 5

/-- The `while retries <= MAX_RATE_LIMIT_RETRIES` loop of `retry_on_rate_limit`:
`fuel` is `MAX_RATE_LIMIT_RETRIES - retries` (the number of further rate-limit
failures tolerated before the re-raise), `i` the attempt index, `d` the current
delay.  On `RateLimitError` with fuel available the wrapper sleeps `d` and
doubles the delay plus jitter; any other exception propagates uncaught.
Returns the call result and the list of slept delays. -/
def retryGo (f : Nat → Att) (jit : Nat → ℚ) :
    Nat → Nat → ℚ → Except ExcClass Nat × List ℚ
  | 0, i, _ =>
    match f i with
    | .succ v => (.ok v, [])
    | .raiseExc c => (.error c, [])
  | fuel + 1, i, d =>
    match f i with
    | .succ v => (.ok v, [])
    | .raiseExc c =>
      if isSubclassOf c .rateLimitError then
        let r := retryGo f jit fuel (i + 1) (2 * d + jit i)
        (r.1, d :: r.2)
      else (.error c, [])

/-- Model of `retry_on_rate_limit(func)` applied to a callable: the loop entered with
`retries = 0` and `delay = RATE_LIMIT_INITIAL_DELAY`. -/
def retryOnRateLimit (f : Nat → Att) (jit : Nat → ℚ) : Except ExcClass Nat × List ℚ :=
  retryGo f jit MAX_RATE_LIMIT_RETRIES 0 RATE_LIMIT_INITIAL_DELAY

/-- The sleep sequence of `k` consecutive rate-limited attempts starting from
delay `d` at attempt `i`. -/
def delayList (jit : Nat → ℚ) : ℚ → Nat → Nat → List ℚ
  | _, _, 0 => []
  | d, i, k + 1 => d :: delayList jit (2 * d + jit i) (i + 1) k

theorem delayList_length (jit : Nat → ℚ) :
    ∀ (k : Nat) (d : ℚ) (i : Nat), (delayList jit d i k).length = k := by
  intro k
  induction k with
  | zero => intro d i; rfl
  | succ k ih => intro d i; simp [delayList, ih]

theorem delayList_head (jit : Nat → ℚ) (k : Nat) (d : ℚ) (i : Nat) (hk : 0 < k) :
    (delayList jit d i k).head? = some d := by
  cases k with
  | zero => omega
  | succ k => rfl

theorem delayList_chain (jit : Nat → ℚ) (hj : ∀ i, 0 ≤ jit i) :
    ∀ (k : Nat) (d : ℚ) (i : Nat), 0 < d →
      List.Chain' (fun a b => a < b) (delayList jit d i k) := by
  intro k
  induction k with
  | zero => intro d i _; exact List.chain'_nil
  | succ k ih =>
    intro d i hd
    have hd2 : 0 < 2 * d + jit i := by have := hj i; linarith
    cases k with
    | zero => exact List.chain'_singleton _
    | succ m =>
      refine List.chain'_cons'.mpr ⟨?_, ih _ _ hd2⟩
      intro y hy
      rw [delayList_head jit (m + 1) _ _ (Nat.succ_pos m)] at hy
      have hyd : 2 * d + jit i = y := by simpa using hy
      rw [← hyd]
      have := hj i; linarith

theorem delayList_recurrence (jit : Nat → ℚ) :
    ∀ (k j : Nat) (d : ℚ) (i : Nat) (a b : ℚ),
      (delayList jit d i k)[j]? = some a → (delayList jit d i k)[j + 1]? = some b →
      b = 2 * a + jit (i + j) := by
  intro k
  induction k with
  | zero => intro j d i a b ha _; simp [delayList] at ha
  | succ k ih =>
    intro j d i a b ha hb
    cases j with
    | zero =>
      cases k with
      | zero => simp [delayList] at hb
      | succ m =>
        simp [delayList] at ha hb
        rw [← hb, ← ha]
        simp
    | succ j =>
      simp [delayList] at ha hb
      rw [show i + (j + 1) = i + 1 + j from by omega]
      exact ih j _ _ _ _ ha hb

theorem retryGo_step_succ (f : Nat → Att) (jit : Nat → ℚ) (fuel i : Nat) (d : ℚ) (v : Nat)
    (hf : f i = Att.succ v) :
    retryGo f jit fuel i d = (Except.ok v, []) := by
  cases fuel <;> simp [retryGo, hf]

theorem retryGo_step_rate (f : Nat → Att) (jit : Nat → ℚ) (fuel i : Nat) (d : ℚ)
    (hf : f i = Att.raiseExc .rateLimitError) :
    retryGo f jit (fuel + 1) i d =
      ((retryGo f jit fuel (i + 1) (2 * d + jit i)).1,
        d :: (retryGo f jit fuel (i + 1) (2 * d + jit i)).2) := by
  simp [retryGo, hf, show isSubclassOf ExcClass.rateLimitError ExcClass.rateLimitError = true
    from rfl]

theorem retryGo_step_exhausted (f : Nat → Att) (jit : Nat → ℚ) (i : Nat) (d : ℚ)
    {c : ExcClass} (hf : f i = Att.raiseExc c) :
    retryGo f jit 0 i d = (Except.error c, []) := by
  simp [retryGo, hf]

theorem retryGo_step_other (f : Nat → Att) (jit : Nat → ℚ) (fuel i : Nat) (d : ℚ)
    {c : ExcClass} (hf : f i = Att.raiseExc c)
    (hc : isSubclassOf c .rateLimitError = false) :
    retryGo f jit fuel i d = (Except.error c, []) := by
  cases fuel <;> simp [retryGo, hf, hc]

theorem retryGo_succ (f : Nat → Att) (jit : Nat → ℚ) :
    ∀ (k fuel i : Nat) (d : ℚ) (v : Nat), k ≤ fuel →
      (∀ j, j < k → f (i + j) = .raiseExc .rateLimitError) → f (i + k) = .succ v →
      retryGo f jit fuel i d = (.ok v, delayList jit d i k) := by
  intro k
  induction k with
  | zero =>
    intro fuel i d v _ _ hsucc
    rw [retryGo_step_succ f jit fuel i d v (by simpa using hsucc)]
    rfl
  | succ k ih =>
    intro fuel i d v hk hfail hsucc
    cases fuel with
    | zero => omega
    | succ fuel =>
      rw [retryGo_step_rate f jit fuel i d (by simpa using hfail 0 (Nat.succ_pos k))]
      have hrec := ih fuel (i + 1) (2 * d + jit i) v (by omega)
        (fun j hj => by
          have := hfail (j + 1) (by omega)
          rwa [show i + (j + 1) = i + 1 + j by omega] at this)
        (by rwa [show i + 1 + k = i + (k + 1) by omega])
      rw [hrec]
      rfl

theorem retryGo_allRate (f : Nat → Att) (jit : Nat → ℚ)
    (h : ∀ j, f j = .raiseExc .rateLimitError) :
    ∀ (fuel i : Nat) (d : ℚ),
      retryGo f jit fuel i d = (.error .rateLimitError, delayList jit d i fuel) := by
  intro fuel
  induction fuel with
  | zero =>
    intro i d
    rw [retryGo_step_exhausted f jit i d (h i)]
    rfl
  | succ fuel ih =>
    intro i d
    rw [retryGo_step_rate f jit fuel i d (h i), ih (i + 1) (2 * d + jit i)]
    rfl

theorem retryGo_other (f : Nat → Att) (jit : Nat → ℚ) (c : ExcClass)
    (hc : isSubclassOf c .rateLimitError = false) :
    ∀ (k fuel i : Nat) (d : ℚ), k ≤ fuel →
      (∀ j, j < k → f (i + j) = .raiseExc .rateLimitError) → f (i + k) = .raiseExc c →
      retryGo f jit fuel i d = (.error c, delayList jit d i k) := by
  intro k
  induction k with
  | zero =>
    intro fuel i d _ _ hraise
    rw [retryGo_step_other f jit fuel i d (by simpa using hraise) hc]
    rfl
  | succ k ih =>
    intro fuel i d hk hfail hraise
    cases fuel with
    | zero => omega
    | succ fuel =>
      rw [retryGo_step_rate f jit fuel i d (by simpa using hfail 0 (Nat.succ_pos k))]
      have hrec := ih fuel (i + 1) (2 * d + jit i) (by omega)
        (fun j hj => by
          have := hfail (j + 1) (by omega)
          rwa [show i + (j + 1) = i + 1 + j by omega] at this)
        (by rwa [show i + 1 + k = i + (k + 1) by omega])
      rw [hrec]
      rfl

/-- C5: `retry_on_rate_limit` (i) returns the success value after `k < maxRetries`
rate-limited attempts, sleeping `k` strictly increasing delays that start at
`RATE_LIMIT_INITIAL_DELAY` and follow `next = 2 * prev + jitter`; (ii) re-raises
the rate-limit error after `maxRetries` retries when every attempt is
rate-limited; (iii) propagates any non-rate-limit error immediately, with no
further attempt or sleep. -/
theorem retry_on_rate_limit_spec (jit : Nat → ℚ)
    (hjl : ∀ i, 0 ≤ jit i) (hju : ∀ i, jit i < 1) :
    (∀ (f : Nat → Att) (k v : Nat), k < MAX_RATE_LIMIT_RETRIES →
      (∀ j, j < k → f j = .raiseExc .rateLimitError) → f k = .succ v →
      (retryOnRateLimit f jit).1 = .ok v ∧
      (retryOnRateLimit f jit).2.length = k ∧
      (0 < k → (retryOnRateLimit f jit).2.head? = some RATE_LIMIT_INITIAL_DELAY) ∧
      List.Chain' (fun a b => a < b) (retryOnRateLimit f jit).2 ∧
      (∀ (j : Nat) (a b : ℚ), ((retryOnRateLimit f jit).2)[j]? = some a →
        ((retryOnRateLimit f jit).2)[j + 1]? = some b → b = 2 * a + jit j)) ∧
    (∀ f : Nat → Att, (∀ j, f j = .raiseExc .rateLimitError) →
      (retryOnRateLimit f jit).1 = .error .rateLimitError ∧
      (retryOnRateLimit f jit).2.length = MAX_RATE_LIMIT_RETRIES) ∧
    (∀ (f : Nat → Att) (k : Nat) (c : ExcClass), k ≤ MAX_RATE_LIMIT_RETRIES →
      isSubclassOf c .rateLimitError = false →
      (∀ j, j < k → f j = .raiseExc .rateLimitError) → f k = .raiseExc c →
      (retryOnRateLimit f jit).1 = .error c ∧
      (retryOnRateLimit f jit).2.length = k) := by
  refine ⟨?_, ?_, ?_⟩
  · intro f k v hk hfail hsucc
    have hrun : retryOnRateLimit f jit =
        (.ok v, delayList jit RATE_LIMIT_INITIAL_DELAY 0 k) := by
      unfold retryOnRateLimit
      exact retryGo_succ f jit k MAX_RATE_LIMIT_RETRIES 0 RATE_LIMIT_INITIAL_DELAY v
        (by omega) (fun j hj => by simpa using hfail j hj) (by simpa using hsucc)
    rw [hrun]
    refine ⟨rfl, delayList_length jit k _ _, ?_, ?_, ?_⟩
    · intro hkpos; exact delayList_head jit k _ _ hkpos
    · exact delayList_chain jit hjl k _ _ (by norm_num [RATE_LIMIT_INITIAL_DELAY])
    · intro j a b ha hb
      have := delayList_recurrence jit k j RATE_LIMIT_INITIAL_DELAY 0 a b ha hb
      simpa using this
  · intro f hall
    have hrun : retryOnRateLimit f jit =
        (.error .rateLimitError,
          delayList jit RATE_LIMIT_INITIAL_DELAY 0 MAX_RATE_LIMIT_RETRIES) := by
      unfold retryOnRateLimit
      exact retryGo_allRate f jit hall MAX_RATE_LIMIT_RETRIES 0 RATE_LIMIT_INITIAL_DELAY
    rw [hrun]
    exact ⟨rfl, delayList_length jit _ _ _⟩
  · intro f k c hk hc hfail hraise
    have hrun : retryOnRateLimit f jit =
        (.error c, delayList jit RATE_LIMIT_INITIAL_DELAY 0 k) := by
      unfold retryOnRateLimit
      exact retryGo_other f jit c hc k MAX_RATE_LIMIT_RETRIES 0 RATE_LIMIT_INITIAL_DELAY
        (by omega) (fun j hj => by simpa using hfail j hj) (by simpa using hraise)
    rw [hrun]
    exact ⟨rfl, delayList_length jit k _ _⟩

/-- C5 witness: two rate-limited attempts, then success with value 7, under
constant jitter 1/2. -/
theorem retry_on_rate_limit_spec_witness :
    (retryOnRateLimit
        (fun i => if i < 2 then Att.raiseExc .rateLimitError else Att.succ 7)
        (fun _ => 1/2)).1 = .ok 7 ∧
    (retryOnRateLimit
        (fun i => if i < 2 then Att.raiseExc .rateLimitError else Att.succ 7)
        (fun _ => 1/2)).2.length = 2 ∧
    (retryOnRateLimit
        (fun i => if i < 2 then Att.raiseExc .rateLimitError else Att.succ 7)
        (fun _ => 1/2)).2.head? = some RATE_LIMIT_INITIAL_DELAY ∧
    List.Chain' (fun a b => a < b)
      (retryOnRateLimit
        (fun i => if i < 2 then Att.raiseExc .rateLimitError else Att.succ 7)
        (fun _ => 1/2)).2 := by
  have h := (retry_on_rate_limit_spec (fun _ => 1/2)
      (fun _ => by norm_num) (fun _ => by norm_num)).1
      (fun i => if i < 2 then Att.raiseExc .rateLimitError else Att.succ 7) 2 7
      (by decide)
      (fun j hj => by
        interval_cases j <;> rfl)
      (by rfl)
  exact ⟨h.1, h.2.1, h.2.2.1 (by decide), h.2.2.2.1⟩

/-- C8 counterexample: when every attempt is rate-limited, the error finally
surfaced is the `RateLimitError` itself, and `RateLimitError` is not in the
`ExtractionError` family: `class RateLimitError(Exception)` in
src/skt_dl/exceptions.py derives directly from `Exception`. -/
theorem rate_limit_error_not_extraction_class :
    (retryOnRateLimit (fun _ => Att.raiseExc .rateLimitError) (fun _ => 1/2)).1
      = .error .rateLimitError ∧
    isSubclassOf .rateLimitError .extractionError = false := by
  constructor
  · unfold retryOnRateLimit
    rw [retryGo_allRate (fun _ => Att.raiseExc .rateLimitError) (fun _ => 1/2)
      (fun _ => rfl) MAX_RATE_LIMIT_RETRIES 0 RATE_LIMIT_INITIAL_DELAY]
  · rfl

/-- C8 (amended): after the retry cap is exhausted the wrapper re-raises the
original `RateLimitError`, whose ancestry is `[RateLimitError, Exception]` —
it does not belong to the extraction-error family. -/
theorem rate_limit_exhaustion_raises_rate_limit_error (f : Nat → Att) (jit : Nat → ℚ)
    (h : ∀ j, f j = .raiseExc .rateLimitError) :
    (retryOnRateLimit f jit).1 = .error .rateLimitError ∧
    classAncestry .rateLimitError = [.rateLimitError, .exc] ∧
    isSubclassOf .rateLimitError .extractionError = false := by
  refine ⟨?_, rfl, rfl⟩
  unfold retryOnRateLimit
  rw [retryGo_allRate f jit h MAX_RATE_LIMIT_RETRIES 0 RATE_LIMIT_INITIAL_DELAY]

/-- C8 witness: the always-rate-limited callable with zero jitter. -/
theorem rate_limit_exhaustion_witness :
    (retryOnRateLimit (fun _ => Att.raiseExc .rateLimitError) (fun _ => 0)).1
      = .error .rateLimitError ∧
    classAncestry .rateLimitError = [.rateLimitError, .exc] ∧
    isSubclassOf .rateLimitError .extractionError = false :=
  rate_limit_exhaustion_raises_rate_limit_error
    (fun _ => Att.raiseExc .rateLimitError) (fun _ => 0) (fun _ => rfl)

/-! ## `download_video` and `_download_stream` (src/skt_dl/downloader.py)

The filesystem is a map from paths to file contents (`none` = no file at that
path); file contents are byte lists.  The transport models one
`session.get(url, stream=True)`: it can fail before any byte arrives
(`raise_for_status` / connection error), or yield its chunks and then fail
mid-iteration (`midFail`).  Progress callback invocations are collected as
`(bytes_downloaded, content_length)` events; wall-clock `elapsed` is not
modelled. -/

/-- Paths to optional file contents. -/
def FS := String → Option (List Nat)

/-- Point update of the filesystem: file creation, truncation or removal. -/
def fsSet (fs : FS) (p : String) (v : Option (List Nat)) : FS :=
  fun q => if q = p then v else fs q

/-- One streaming HTTP response. -/
structure Transport where
  early : Bool
  chunks : List (List Nat)
  midFail : Bool
  respLen : Nat

/-- Result of `_download_stream`: the filesystem afterwards, the progress events
emitted, and whether the call returned without raising. -/
structure StreamResult where
  fs : FS
  events : List (Nat × Option Nat)
  ok : Bool

/-- The two `raise DownloadError(...)` sites of `download_video`
(src/skt_dl/downloader.py, lines 84 and 124). -/
inductive DLErr
  | noFormat
  | downloadFailed
deriving DecidableEq

/-- The `for chunk in response.iter_content(...)` loop: empty chunks are skipped
(`if not chunk: continue`), each written chunk appends to the file, advances the
byte counter and fires the progress callback when one is installed. -/
def writeLoop (cl : Option Nat) (hasCb : Bool) :
    List (List Nat) → Nat → List Nat → List Nat × Nat × List (Nat × Option Nat)
  | [], bytes, content => (content, bytes, [])
  | c :: rest, bytes, content =>
    if c.isEmpty then writeLoop cl hasCb rest bytes content
    else
      let bytes2 := bytes + c.length
      let r := writeLoop cl hasCb rest bytes2 (content ++ c)
      (r.1, r.2.1, (if hasCb then [(bytes2, cl)] else []) ++ r.2.2)

/-- Model of `VideoDownloader._download_stream` (src/skt_dl/downloader.py, lines 292-345).
A `content_length` of `some 0` is refined from the response header
(`if content_length == 0`); `none` (Python `None`) is not, since `None == 0` is
false.  The file is created (truncated) before the first chunk, so a mid-stream
failure leaves a partial file behind for the caller to clean up.  The final
progress call `progress_callback(content_length, content_length, elapsed)` is
guarded by `progress_callback and content_length > 0`; when `content_length` is
`None` and a callback is installed, `None > 0` raises `TypeError`, which also
surfaces as a failure of the call. -/
def downloadStream (t : Transport) (dest : String) (contentLength : Option Nat)
    (hasCb : Bool) (fs : FS) : StreamResult :=
  if t.early then ⟨fs, [], false⟩
  else
    let cl := if contentLength = some 0 then some t.respLen else contentLength
    let w := writeLoop cl hasCb t.chunks 0 []
    let fs1 := fsSet fs dest (some w.1)
    if t.midFail then ⟨fs1, w.2.2, false⟩
    else
      match cl with
      | some L =>
        if hasCb ∧ 0 < L then ⟨fs1, w.2.2 ++ [(L, some L)], true⟩
        else ⟨fs1, w.2.2, true⟩
      | none => if hasCb then ⟨fs1, w.2.2, false⟩ else ⟨fs1, w.2.2, true⟩

/-- The filename computed by `download_video`: the override when given and
non-empty (`if not filename:` treats `""` as absent), else the sanitised title,
plus `"." + container`. -/
def outputFileName (title : String) (filename : Option String) (fmt : Format) : String :=
  let name :=
    match filename with
    | some fn => if fn.isEmpty then String.mk (safeFilename title.toList) else fn
    | none => String.mk (safeFilename title.toList)
  name ++ "." ++ fmt.container

/-- Model of `os.path.join(output_path, full_filename)`. -/
def outputFilePath (outputPath title : String) (filename : Option String)
    (fmt : Format) : String :=
  outputPath ++ "/" ++ outputFileName title filename fmt

/-- Model of `VideoDownloader.download_video` (src/skt_dl/downloader.py, lines 50-124)
from format selection onwards: select a format (raising `DownloadError` when
none fits), stream to the destination file, and on any exception remove the
destination file if it exists before re-raising as `DownloadError`.  Metadata
extraction is the caller-supplied `title`/`formats`. -/
def downloadVideo (title : String) (formats : List Format) (quality : String)
    (outputPath : String) (filename : Option String) (t : Transport) (hasCb : Bool)
    (fs : FS) : FS × Except DLErr String :=
  match selectFormat formats quality with
  | none => (fs, .error .noFormat)
  | some fmt =>
    let outFile := outputFilePath outputPath title filename fmt
    let r := downloadStream t outFile fmt.content_length hasCb fs
    if r.ok then (r.fs, .ok outFile)
    else
      let fs2 := if (r.fs outFile).isSome then fsSet r.fs outFile none else r.fs
      (fs2, .error .downloadFailed)

theorem fsSet_self (fs : FS) (p : String) (v : Option (List Nat)) :
    fsSet fs p v p = v := by
  simp [fsSet]

theorem fsSet_other (fs : FS) (p q : String) (v : Option (List Nat)) (h : q ≠ p) :
    fsSet fs p v q = fs q := by
  simp [fsSet, h]

/-- C1: if the transport fails mid-stream after `N > 0` chunks were written,
`download_video` raises `DownloadError` and the destination path does not exist
afterwards; no other path is touched. -/
theorem download_video_cleanup (title outputPath : String) (formats : List Format)
    (quality : String) (filename : Option String) (t : Transport) (hasCb : Bool)
    (fs : FS) (fmt : Format)
    (hsel : selectFormat formats quality = some fmt)
    (hearly : t.early = false) (hfail : t.midFail = true)
    (hN : 0 < (t.chunks.filter (fun c => !c.isEmpty)).length) :
    (downloadVideo title formats quality outputPath filename t hasCb fs).2
      = .error .downloadFailed ∧
    (downloadVideo title formats quality outputPath filename t hasCb fs).1
      (outputFilePath outputPath title filename fmt) = none ∧
    (∀ p, p ≠ outputFilePath outputPath title filename fmt →
      (downloadVideo title formats quality outputPath filename t hasCb fs).1 p = fs p) := by
  have hstream : downloadStream t (outputFilePath outputPath title filename fmt)
      fmt.content_length hasCb fs =
      ⟨fsSet fs (outputFilePath outputPath title filename fmt)
        (some (writeLoop (if fmt.content_length = some 0 then some t.respLen
          else fmt.content_length) hasCb t.chunks 0 []).1),
        (writeLoop (if fmt.content_length = some 0 then some t.respLen
          else fmt.content_length) hasCb t.chunks 0 []).2.2, false⟩ := by
    unfold downloadStream
    rw [hearly, hfail]
    simp
  have hdv : downloadVideo title formats quality outputPath filename t hasCb fs =
      (fsSet (fsSet fs (outputFilePath outputPath title filename fmt)
          (some (writeLoop (if fmt.content_length = some 0 then some t.respLen
            else fmt.content_length) hasCb t.chunks 0 []).1))
        (outputFilePath outputPath title filename fmt) none,
       .error .downloadFailed) := by
    simp only [downloadVideo, hsel]
    rw [hstream]
    simp [fsSet_self]
  rw [hdv]
  refine ⟨rfl, ?_, ?_⟩
  · dsimp only
    exact fsSet_self _ _ _
  · intro p hp
    dsimp only
    rw [fsSet_other _ _ _ _ hp, fsSet_other _ _ _ _ hp]

/-- A combined format with a known content length, for the C1 witness. -/
def sampleStreamFmt : Format :=
  { itag := 18, url := "s", container := "mp4", is_audio := true, is_video := true,
    quality := "360p", audio_bitrate := 9600, video_bitrate := 86400, width := 640,
    height := 360, content_length := some 5, fps := 30 }

/-- C1 witness: a transport that yields two chunks and then fails, over an empty
filesystem. -/
theorem download_video_cleanup_witness :
    (downloadVideo "t" [sampleStreamFmt] "best" "d" none
        ⟨false, [[1, 2], [3]], true, 0⟩ true (fun _ => none)).2
      = .error .downloadFailed ∧
    (downloadVideo "t" [sampleStreamFmt] "best" "d" none
        ⟨false, [[1, 2], [3]], true, 0⟩ true (fun _ => none)).1
      (outputFilePath "d" "t" none sampleStreamFmt) = none := by
  have h := download_video_cleanup "t" "d" [sampleStreamFmt] "best" none
    ⟨false, [[1, 2], [3]], true, 0⟩ true (fun _ => none) sampleStreamFmt
    (by decide) rfl rfl (by decide)
  exact ⟨h.1, h.2.1⟩

/-! ## `ConcurrentDownloader` (src/skt_dl/concurrent.py)

A small-step interleaving model of `download_playlist` and `_worker`.  Tasks are
identified by their 1-based sequence index.  The state carries the main thread's
not-yet-enqueued tasks (`pending`), the FIFO `task_queue` (`queue`), the
`result_queue` contents (`results`, each `(index, success?)`), and each worker's
phase.  `_start_workers()` runs *before* the enqueue loop (lines 76 and 79-96),
so worker steps are enabled from the initial state on.  A worker processes one
popped task to exactly one result — success or, on any exception, a failure
record — before calling `task_done` (lines 143-201); `oracle` decides which task
indices succeed.  `task_queue.join()` returns exactly when every put has been
matched by a `task_done`, i.e. when `pending` and `queue` are empty and no
worker still holds a task (`drained`). -/

/-- A worker is either polling the queue or processing the task it popped. -/
inductive WorkerPhase
  | idle
  | processing (t : Nat)
deriving DecidableEq

/-- Global state of one `download_playlist` call. -/
structure PoolState where
  pending : List Nat
  queue : List Nat
  results : List (Nat × Bool)
  workers : List WorkerPhase
deriving DecidableEq

/-- Scheduler events: the main thread enqueues the next task; worker `w` pops a
task, observes an empty queue (`queue.Empty` timeout, line 138-140), or finishes
its current task and records the outcome. -/
inductive Label
  | put
  | pop (w : Nat)
  | popEmpty (w : Nat)
  | finish (w : Nat)

/-- State right after `_start_workers()` and before the first `put`: all `n`
tasks pending, queue and results empty, `w` idle workers running. -/
def initState (n w : Nat) : PoolState :=
  { pending := List.range' 1 n, queue := [], results := [],
    workers := List.replicate w .idle }

/-- One interleaving step; `none` when the event is not enabled. -/
def step (oracle : Nat → Bool) (s : PoolState) : Label → Option PoolState
  | .put =>
    match s.pending with
    | [] => none
    | t :: rest => some { s with pending := rest, queue := s.queue ++ [t] }
  | .pop w =>
    match s.workers[w]? with
    | some .idle =>
      match s.queue with
      | t :: q => some { s with queue := q, workers := s.workers.set w (.processing t) }
      | [] => none
    | _ => none
  | .popEmpty w =>
    match s.workers[w]?, s.queue with
    | some .idle, [] => some s
    | _, _ => none
  | .finish w =>
    match s.workers[w]? with
    | some (.processing t) =>
      some { s with results := s.results ++ [(t, oracle t)],
                    workers := s.workers.set w .idle }
    | _ => none

/-- Execution of a schedule (a list of events) from a state. -/
def run (oracle : Nat → Bool) : PoolState → List Label → Option PoolState
  | s, [] => some s
  | s, l :: ls =>
    match step oracle s l with
    | some s2 => run oracle s2 ls
    | none => none

/-- The task indices currently held by workers. -/
def inflight (ws : List WorkerPhase) : List Nat :=
  ws.filterMap (fun p => match p with | .idle => none | .processing t => some t)

/-- The multiset of task indices across all four places of the state. -/
def tasksOf (s : PoolState) : Multiset Nat :=
  (s.pending : Multiset Nat) + (s.queue : Multiset Nat)
    + (inflight s.workers : Multiset Nat) + ((s.results.map Prod.fst) : Multiset Nat)

/-- The join-barrier condition on which `task_queue.join()` returns. -/
def drained (s : PoolState) : Prop :=
  s.pending = [] ∧ s.queue = [] ∧ ∀ wp ∈ s.workers, wp = WorkerPhase.idle

/-- The `downloaded_files` list built from the result queue (lines 104-118). -/
def successes (results : List (Nat × Bool)) : List Nat :=
  (results.filter (fun r => r.2)).map Prod.fst

/-- The `errors` list built from the result queue (lines 104-118). -/
def failures (results : List (Nat × Bool)) : List Nat :=
  (results.filter (fun r => !r.2)).map Prod.fst

theorem inflight_cons_idle (rest : List WorkerPhase) :
    inflight (WorkerPhase.idle :: rest) = inflight rest := rfl

theorem inflight_cons_processing (u : Nat) (rest : List WorkerPhase) :
    inflight (WorkerPhase.processing u :: rest) = u :: inflight rest := rfl

theorem inflight_replicate_idle : ∀ w : Nat, inflight (List.replicate w .idle) = [] := by
  intro w
  induction w with
  | zero => rfl
  | succ w ih =>
    rw [List.replicate_succ, inflight_cons_idle]
    exact ih

theorem inflight_all_idle : ∀ {ws : List WorkerPhase},
    (∀ wp ∈ ws, wp = WorkerPhase.idle) → inflight ws = [] := by
  intro ws
  induction ws with
  | nil => intro _; rfl
  | cons p rest ih =>
    intro h
    have hp : p = WorkerPhase.idle := h p (List.mem_cons_self _ _)
    subst hp
    rw [inflight_cons_idle]
    exact ih (fun wp hm => h wp (List.mem_cons_of_mem _ hm))

theorem inflight_set_processing :
    ∀ (ws : List WorkerPhase) (w t : Nat), ws[w]? = some .idle →
      (↑(inflight (ws.set w (.processing t))) : Multiset Nat)
        = {t} + ↑(inflight ws) := by
  intro ws
  induction ws with
  | nil => intro w t h; simp at h
  | cons p rest ih =>
    intro w t h
    cases w with
    | zero =>
      simp at h
      subst h
      show (↑(inflight (WorkerPhase.processing t :: rest)) : Multiset Nat)
        = {t} + ↑(inflight (WorkerPhase.idle :: rest))
      rw [inflight_cons_processing, inflight_cons_idle, Multiset.singleton_add,
        Multiset.cons_coe]
    | succ w =>
      simp at h
      cases p with
      | idle =>
        show (↑(inflight (WorkerPhase.idle :: rest.set w (.processing t))) : Multiset Nat)
          = {t} + ↑(inflight (WorkerPhase.idle :: rest))
        rw [inflight_cons_idle, inflight_cons_idle]
        exact ih w t h
      | processing u =>
        show (↑(inflight (WorkerPhase.processing u :: rest.set w (.processing t)))
            : Multiset Nat)
          = {t} + ↑(inflight (WorkerPhase.processing u :: rest))
        rw [inflight_cons_processing, inflight_cons_processing,
          ← Multiset.cons_coe, ← Multiset.cons_coe, ih w t h,
          Multiset.singleton_add, Multiset.singleton_add]
        exact Multiset.cons_swap u t _

theorem inflight_set_idle :
    ∀ (ws : List WorkerPhase) (w t : Nat), ws[w]? = some (.processing t) →
      {t} + (↑(inflight (ws.set w .idle)) : Multiset Nat) = ↑(inflight ws) := by
  intro ws
  induction ws with
  | nil => intro w t h; simp at h
  | cons p rest ih =>
    intro w t h
    cases w with
    | zero =>
      simp at h
      subst h
      show {t} + (↑(inflight (WorkerPhase.idle :: rest)) : Multiset Nat)
        = ↑(inflight (WorkerPhase.processing t :: rest))
      rw [inflight_cons_idle, inflight_cons_processing, Multiset.singleton_add,
        Multiset.cons_coe]
    | succ w =>
      simp at h
      cases p with
      | idle =>
        show {t} + (↑(inflight (WorkerPhase.idle :: rest.set w .idle)) : Multiset Nat)
          = ↑(inflight (WorkerPhase.idle :: rest))
        rw [inflight_cons_idle, inflight_cons_idle]
        exact ih w t h
      | processing u =>
        show {t} + (↑(inflight (WorkerPhase.processing u :: rest.set w .idle))
            : Multiset Nat)
          = ↑(inflight (WorkerPhase.processing u :: rest))
        rw [inflight_cons_processing, inflight_cons_processing,
          ← Multiset.cons_coe, ← Multiset.cons_coe, ← ih w t h,
          Multiset.singleton_add, Multiset.singleton_add]
        exact Multiset.cons_swap t u _

theorem step_tasksOf {oracle : Nat → Bool} {s s2 : PoolState} {l : Label}
    (h : step oracle s l = some s2) : tasksOf s2 = tasksOf s := by
  cases l with
  | put =>
    simp only [step] at h
    cases hp : s.pending with
    | nil => rw [hp] at h; simp at h
    | cons t rest =>
      rw [hp] at h
      simp at h
      subst h
      unfold tasksOf
      dsimp only
      rw [hp]
      rw [show (↑(s.queue ++ [t]) : Multiset Nat) = ↑s.queue + {t} from rfl]
      rw [show (↑(t :: rest) : Multiset Nat) = {t} + ↑rest from rfl]
      abel
  | pop w =>
    simp only [step] at h
    cases hw : s.workers[w]? with
    | none => rw [hw] at h; simp at h
    | some p =>
      rw [hw] at h
      cases p with
      | processing t => simp at h
      | idle =>
        cases hq : s.queue with
        | nil => rw [hq] at h; simp at h
        | cons t q =>
          rw [hq] at h
          simp at h
          subst h
          unfold tasksOf
          dsimp only
          rw [hq, inflight_set_processing s.workers w t hw]
          rw [show (↑(t :: q) : Multiset Nat) = {t} + ↑q from rfl]
          abel
  | popEmpty w =>
    simp only [step] at h
    cases hw : s.workers[w]? with
    | none => rw [hw] at h; simp at h
    | some p =>
      rw [hw] at h
      cases p with
      | processing t => simp at h
      | idle =>
        cases hq : s.queue with
        | cons t q => rw [hq] at h; simp at h
        | nil =>
          rw [hq] at h
          simp at h
          rw [← h]
  | finish w =>
    simp only [step] at h
    cases hw : s.workers[w]? with
    | none => rw [hw] at h; simp at h
    | some p =>
      rw [hw] at h
      cases p with
      | idle => simp at h
      | processing t =>
        simp at h
        subst h
        unfold tasksOf
        dsimp only
        rw [List.map_append]
        rw [show (↑(List.map Prod.fst s.results ++ List.map Prod.fst [(t, oracle t)])
            : Multiset Nat) = ↑(List.map Prod.fst s.results) + {t} from rfl]
        rw [← inflight_set_idle s.workers w t hw]
        abel

theorem run_tasksOf {oracle : Nat → Bool} :
    ∀ {τ : List Label} {s s2 : PoolState},
      run oracle s τ = some s2 → tasksOf s2 = tasksOf s := by
  intro τ
  induction τ with
  | nil => intro s s2 h; simp [run] at h; rw [h]
  | cons l ls ih =>
    intro s s2 h
    unfold run at h
    cases hs : step oracle s l with
    | none => rw [hs] at h; simp at h
    | some s1 =>
      rw [hs] at h
      exact (ih h).trans (step_tasksOf hs)

theorem tasksOf_init (n w : Nat) : tasksOf (initState n w) = ↑(List.range' 1 n) := by
  unfold tasksOf initState
  simp [inflight_replicate_idle]

theorem filter_length_split (rs : List (Nat × Bool)) :
    (rs.filter (fun r => r.2)).length + (rs.filter (fun r => !r.2)).length = rs.length := by
  induction rs with
  | nil => rfl
  | cons r rest ih =>
    cases hr : r.2 <;> simp [List.filter, hr] <;> omega

theorem nodup_fst_unique :
    ∀ {rs : List (Nat × Bool)}, (rs.map Prod.fst).Nodup →
      ∀ {i : Nat} {a b : Bool}, (i, a) ∈ rs → (i, b) ∈ rs → a = b := by
  intro rs
  induction rs with
  | nil => intro _ i a b ha; simp at ha
  | cons r rest ih =>
    intro h i a b ha hb
    rw [List.map_cons, List.nodup_cons] at h
    rcases List.mem_cons.mp ha with ha1 | ha2 <;> rcases List.mem_cons.mp hb with hb1 | hb2
    · have heq : (i, a) = (i, b) := ha1.trans hb1.symm
      exact (Prod.ext_iff.mp heq).2
    · exfalso
      apply h.1
      have hm : i ∈ List.map Prod.fst rest := List.mem_map.mpr ⟨(i, b), hb2, rfl⟩
      rw [← ha1]
      exact hm
    · exfalso
      apply h.1
      have hm : i ∈ List.map Prod.fst rest := List.mem_map.mpr ⟨(i, a), ha2, rfl⟩
      rw [← hb1]
      exact hm
    · exact ih h.2 ha2 hb2

theorem mem_successes {rs : List (Nat × Bool)} {i : Nat} :
    i ∈ successes rs ↔ (i, true) ∈ rs := by
  unfold successes
  constructor
  · intro h
    obtain ⟨r, hr, hri⟩ := List.mem_map.mp h
    obtain ⟨hmem, hb⟩ := List.mem_filter.mp hr
    cases r with
    | mk x y =>
      simp at hb hri
      rw [hri, hb] at hmem
      exact hmem
  · intro h
    exact List.mem_map.mpr ⟨(i, true), List.mem_filter.mpr ⟨h, rfl⟩, rfl⟩

theorem mem_failures {rs : List (Nat × Bool)} {i : Nat} :
    i ∈ failures rs ↔ (i, false) ∈ rs := by
  unfold failures
  constructor
  · intro h
    obtain ⟨r, hr, hri⟩ := List.mem_map.mp h
    obtain ⟨hmem, hb⟩ := List.mem_filter.mp hr
    cases r with
    | mk x y =>
      simp at hb hri
      rw [hri, hb] at hmem
      exact hmem
  · intro h
    exact List.mem_map.mpr ⟨(i, false), List.mem_filter.mpr ⟨h, rfl⟩, rfl⟩

/-- C2: once `download_playlist`'s join barrier is passed, the success and
failure lists partition the `n` enqueued tasks exactly: their lengths sum to
`n`, the recorded indices are a permutation of `1..n`, every index lands in
exactly one of the two lists, and neither list repeats an index — for every
schedule and every choice of which tasks fail, so one task's failure never
aborts its siblings. -/
theorem download_playlist_outcomes (n w : Nat) (oracle : Nat → Bool) (τ : List Label)
    (s : PoolState) (hn : 0 < n)
    (hrun : run oracle (initState n w) τ = some s) (hdr : drained s) :
    (successes s.results).length + (failures s.results).length = n ∧
    (s.results.map Prod.fst).Perm (List.range' 1 n) ∧
    (∀ i, 1 ≤ i → i ≤ n →
      ((i ∈ successes s.results ∧ i ∉ failures s.results) ∨
       (i ∈ failures s.results ∧ i ∉ successes s.results))) ∧
    (successes s.results).Nodup ∧ (failures s.results).Nodup := by
  obtain ⟨hpend, hq, hidle⟩ := hdr
  have hcons : tasksOf s = ↑(List.range' 1 n) := by
    rw [run_tasksOf hrun, tasksOf_init]
  have hres : ((s.results.map Prod.fst : List Nat) : Multiset Nat)
      = ↑(List.range' 1 n) := by
    unfold tasksOf at hcons
    rw [hpend, hq, inflight_all_idle hidle] at hcons
    simpa using hcons
  have hperm : (s.results.map Prod.fst).Perm (List.range' 1 n) :=
    Multiset.coe_eq_coe.mp hres
  have hnodup : (s.results.map Prod.fst).Nodup :=
    (hperm.nodup_iff).mpr (List.nodup_range' 1 n)
  have hlen : s.results.length = n := by
    have h2 := hperm.length_eq
    simpa using h2
  refine ⟨?_, hperm, ?_, ?_, ?_⟩
  · unfold successes failures
    rw [List.length_map, List.length_map, filter_length_split, hlen]
  · intro i h1 h2
    have himem : i ∈ s.results.map Prod.fst := hperm.mem_iff.mpr (by
      rw [List.mem_range'_1]; omega)
    obtain ⟨r, hr, hri⟩ := List.mem_map.mp himem
    cases r with
    | mk x b =>
      simp at hri
      subst hri
      cases b with
      | true =>
        left
        refine ⟨mem_successes.mpr hr, ?_⟩
        intro hf
        have hb := nodup_fst_unique hnodup hr (mem_failures.mp hf)
        simp at hb
      | false =>
        right
        refine ⟨mem_failures.mpr hr, ?_⟩
        intro hsucc
        have hb := nodup_fst_unique hnodup (mem_successes.mp hsucc) hr
        simp at hb
  · exact List.Sublist.nodup
      (List.Sublist.map Prod.fst (List.filter_sublist s.results)) hnodup
  · exact List.Sublist.nodup
      (List.Sublist.map Prod.fst (List.filter_sublist s.results)) hnodup

/-- C2 witness: two tasks, one worker, task 2 configured to fail, a complete
schedule. -/
theorem download_playlist_outcomes_witness :
    (successes [(1, true), (2, false)]).length
      + (failures [(1, true), (2, false)]).length = 2 ∧
    (([(1, true), (2, false)] : List (Nat × Bool)).map Prod.fst).Perm
      (List.range' 1 2) ∧
    (∀ i, 1 ≤ i → i ≤ 2 →
      ((i ∈ successes [(1, true), (2, false)] ∧ i ∉ failures [(1, true), (2, false)]) ∨
       (i ∈ failures [(1, true), (2, false)] ∧ i ∉ successes [(1, true), (2, false)]))) ∧
    (successes [(1, true), (2, false)]).Nodup ∧
    (failures [(1, true), (2, false)]).Nodup := by
  have h := download_playlist_outcomes 2 1 (fun i => i == 1)
    [Label.put, Label.put, Label.pop 0, Label.finish 0, Label.pop 0, Label.finish 0]
    ⟨[], [], [(1, true), (2, false)], [WorkerPhase.idle]⟩
    (by decide) (by decide) ⟨rfl, rfl, fun wp hwp => by simpa using hwp⟩
  exact h

/-- A queue-observation event: `task_queue.get` succeeding or timing out. -/
def isPoll : Label → Prop
  | .pop _ => True
  | .popEmpty _ => True
  | .put => False
  | .finish _ => False

/-- C7 as stated: in every reachable interleaving, no worker polls the task
queue while the enqueue loop still has tasks to insert. -/
def pollsOnlyAfterEnqueue (n w : Nat) (oracle : Nat → Bool) : Prop :=
  ∀ (τ1 : List Label) (l : Label) (τ2 : List Label) (s : PoolState),
    run oracle (initState n w) (τ1 ++ l :: τ2) ≠ none →
    run oracle (initState n w) τ1 = some s →
    isPoll l → s.pending = []

/-- C7 counterexample: `download_playlist` calls `_start_workers()` (line 76)
*before* the enqueue loop (lines 79-96), so with 2 tasks and 2 workers there is
a reachable interleaving in which worker 0 pops task 1 from the queue while
task 2 is still pending — the claimed ordering does not hold. -/
theorem poll_during_enqueue_reachable :
    ¬ pollsOnlyAfterEnqueue 2 2 (fun _ => true) := by
  intro h
  have h2 := h [Label.put] (Label.pop 0) []
    ⟨[2], [1], [], [WorkerPhase.idle, WorkerPhase.idle]⟩
    (by decide) (by decide) trivial
  simp at h2

/-- C7 (amended): workers start before the enqueue loop, so a worker may poll a
partially populated queue; this is harmless: the multiset of task indices
spread over pending/queue/workers/results is `1..n` after every reachable
interleaving, a drained run records exactly the indices `1..n`, and a worker
that observes an empty queue leaves the state unchanged (it keeps polling
rather than exiting). -/
theorem early_poll_preserves_outcomes (n w : Nat) (oracle : Nat → Bool) (τ : List Label)
    (s : PoolState) (hrun : run oracle (initState n w) τ = some s) :
    tasksOf s = ↑(List.range' 1 n) ∧
    (drained s → (s.results.map Prod.fst).Perm (List.range' 1 n)) ∧
    (∀ (s0 : PoolState) (w2 : Nat) (s1 : PoolState),
      step oracle s0 (.popEmpty w2) = some s1 → s1 = s0) := by
  have hcons : tasksOf s = ↑(List.range' 1 n) := by
    rw [run_tasksOf hrun, tasksOf_init]
  refine ⟨hcons, ?_, ?_⟩
  · intro hdr
    obtain ⟨hpend, hq, hidle⟩ := hdr
    have hres : ((s.results.map Prod.fst : List Nat) : Multiset Nat)
        = ↑(List.range' 1 n) := by
      unfold tasksOf at hcons
      rw [hpend, hq, inflight_all_idle hidle] at hcons
      simpa using hcons
    exact Multiset.coe_eq_coe.mp hres
  · intro s0 w2 s1 hstep
    simp only [step] at hstep
    cases hw : s0.workers[w2]? with
    | none => rw [hw] at hstep; simp at hstep
    | some p =>
      rw [hw] at hstep
      cases p with
      | processing t => simp at hstep
      | idle =>
        cases hq2 : s0.queue with
        | cons t q => rw [hq2] at hstep; simp at hstep
        | nil =>
          rw [hq2] at hstep
          simp at hstep
          exact hstep.symm

/-- C7 witness: a schedule in which worker 0 pops task 1 before task 2 is
enqueued, and both tasks are still completed exactly once. -/
theorem early_poll_preserves_outcomes_witness :
    tasksOf ⟨[], [], [(1, true), (2, true)], [WorkerPhase.idle, WorkerPhase.idle]⟩
      = ↑(List.range' 1 2) ∧
    (drained ⟨[], [], [(1, true), (2, true)], [WorkerPhase.idle, WorkerPhase.idle]⟩ →
      ((([(1, true), (2, true)] : List (Nat × Bool))).map Prod.fst).Perm
        (List.range' 1 2)) ∧
    (∀ (s0 : PoolState) (w2 : Nat) (s1 : PoolState),
      step (fun _ => true) s0 (.popEmpty w2) = some s1 → s1 = s0) :=
  early_poll_preserves_outcomes 2 2 (fun _ => true)
    [Label.put, Label.pop 0, Label.put, Label.finish 0, Label.pop 1, Label.finish 1]
    ⟨[], [], [(1, true), (2, true)], [WorkerPhase.idle, WorkerPhase.idle]⟩
    (by decide)

/-! ## Bitrate split of `_parse_format` (src/skt_dl/api_extractor.py, lines 614-630)

`audio_bitrate = min(128000, int(bitrate * 0.1))` runs in IEEE-754 binary64,
so the multiplication is modelled exactly over `ℚ`: the literal `0.1` is the
double `3602879701896397 / 2^55`, `float(bitrate)` and the product round to
nearest (ties to even) at 53 significant bits, and `int(...)` truncates.
Exponent overflow is not modelled (it needs operands beyond `2^1024`, far
outside any representable bitrate). -/

/-- Round to nearest integer, ties to even — the rounding of one binary64
significand step. -/
def rndNE (q : ℚ) : ℤ :=
  let fl := ⌊q⌋
  let fr := q - fl
  if fr < 1/2 then fl
  else if 1/2 < fr then fl + 1
  else if fl % 2 = 0 then fl else fl + 1

/-- Binary64 rounding of a positive rational: scale into `[2^52, 2^53)`, round
the significand to nearest-even, scale back. -/
def roundDouble (q : ℚ) : ℚ :=
  if q ≤ 0 then 0
  else (rndNE (q / 2 ^ (Int.log 2 q - 52)) : ℚ) * 2 ^ (Int.log 2 q - 52)

/-- The binary64 value of the literal `0.1`. -/
def fl01 : ℚ := 3602879701896397 / 2 ^ (55:ℕ)

/-- Conversion `float(n)` for a Python int `n ≥ 0`. -/
def pyFloatOfNat (n : Nat) : ℚ := roundDouble n

/-- Product `x * 0.1` in binary64, for a double `x`. -/
def pyMulFl01 (x : ℚ) : ℚ := roundDouble (x * fl01)

/-- Model of `min(128000, int(bitrate * 0.1))` (src/skt_dl/api_extractor.py, line 629). -/
def estimatedAudioShare (bitrate : Nat) : Nat :=
  min 128000 (⌊pyMulFl01 (pyFloatOfNat bitrate)⌋.toNat)

/-- The audio/video bitrate assignment of `_parse_format`
(src/skt_dl/api_extractor.py, lines 614-630). -/
def parseBitrates (hasAudio hasVideo : Bool) (bitrate : Nat) : Nat × Nat :=
  if hasAudio ∧ ¬ hasVideo then (bitrate, 0)
  else if hasVideo ∧ ¬ hasAudio then (0, bitrate)
  else if hasAudio ∧ hasVideo ∧ 0 < bitrate then
    (estimatedAudioShare bitrate, bitrate - estimatedAudioShare bitrate)
  else (0, 0)

theorem rndNE_le (q : ℚ) : (rndNE q : ℚ) ≤ q + 1/2 := by
  unfold rndNE
  have h1 : (⌊q⌋ : ℚ) ≤ q := Int.floor_le q
  have h2 : q < ⌊q⌋ + 1 := Int.lt_floor_add_one q
  by_cases hc1 : q - ⌊q⌋ < 1/2
  · rw [if_pos hc1]; linarith
  · rw [if_neg hc1]
    by_cases hc2 : 1/2 < q - ⌊q⌋
    · rw [if_pos hc2]; push_cast; linarith
    · rw [if_neg hc2]
      have heq : q - ⌊q⌋ = 1/2 := by linarith
      by_cases hc3 : ⌊q⌋ % 2 = 0
      · rw [if_pos hc3]; linarith
      · rw [if_neg hc3]; push_cast; linarith

theorem rndNE_ge (q : ℚ) : q - 1/2 ≤ (rndNE q : ℚ) := by
  unfold rndNE
  have h1 : (⌊q⌋ : ℚ) ≤ q := Int.floor_le q
  have h2 : q < ⌊q⌋ + 1 := Int.lt_floor_add_one q
  by_cases hc1 : q - ⌊q⌋ < 1/2
  · rw [if_pos hc1]; linarith
  · rw [if_neg hc1]
    by_cases hc2 : 1/2 < q - ⌊q⌋
    · rw [if_pos hc2]; push_cast; linarith
    · rw [if_neg hc2]
      have heq : q - ⌊q⌋ = 1/2 := by linarith
      by_cases hc3 : ⌊q⌋ % 2 = 0
      · rw [if_pos hc3]; linarith
      · rw [if_neg hc3]; push_cast; linarith

theorem rndNE_intCast (n : ℤ) : rndNE (n : ℚ) = n := by
  unfold rndNE
  rw [Int.floor_intCast]
  rw [if_pos (by norm_num)]

/-- The scale factor of `roundDouble` is bounded by `q / 2^52`. -/
theorem zpow_log_sub_le (q : ℚ) (hq : 0 < q) :
    (2:ℚ) ^ (Int.log 2 q - 52) ≤ q / 2 ^ (52:ℕ) := by
  rw [zpow_sub₀ (by norm_num : (2:ℚ) ≠ 0)]
  have hlog : (2:ℚ) ^ Int.log 2 q ≤ q := by
    have h := Int.zpow_log_le_self (b := 2) (by norm_num) hq
    push_cast at h
    exact h
  have h52 : (2:ℚ) ^ (52:ℤ) = 2 ^ (52:ℕ) := by
    rw [show ((52:ℤ)) = ((52:ℕ) : ℤ) from rfl, zpow_natCast]
  rw [h52]
  exact (div_le_div_right (by positivity)).mpr hlog

theorem roundDouble_le (q : ℚ) (hq : 0 < q) :
    roundDouble q ≤ q + q / 2 ^ (53:ℕ) := by
  unfold roundDouble
  rw [if_neg (not_le.mpr hq)]
  have hpow : (0:ℚ) < 2 ^ (Int.log 2 q - 52) := zpow_pos (by norm_num) _
  have h1 := rndNE_le (q / 2 ^ (Int.log 2 q - 52))
  have h2 : (rndNE (q / 2 ^ (Int.log 2 q - 52)) : ℚ) * 2 ^ (Int.log 2 q - 52) ≤
      (q / 2 ^ (Int.log 2 q - 52) + 1/2) * 2 ^ (Int.log 2 q - 52) :=
    mul_le_mul_of_nonneg_right h1 (le_of_lt hpow)
  have h3 : (q / 2 ^ (Int.log 2 q - 52) + 1/2) * 2 ^ (Int.log 2 q - 52)
      = q + 2 ^ (Int.log 2 q - 52) / 2 := by
    field_simp
    ring
  have h4 := zpow_log_sub_le q hq
  have h5 : (2:ℚ) ^ (Int.log 2 q - 52) / 2 ≤ q / 2 ^ (53:ℕ) := by
    rw [show ((2:ℚ) ^ (53:ℕ)) = 2 ^ (52:ℕ) * 2 by norm_num]
    rw [show q / (2 ^ (52:ℕ) * 2) = q / 2 ^ (52:ℕ) / 2 by ring]
    linarith
  linarith

theorem roundDouble_ge (q : ℚ) (hq : 0 < q) :
    q - q / 2 ^ (53:ℕ) ≤ roundDouble q := by
  unfold roundDouble
  rw [if_neg (not_le.mpr hq)]
  have hpow : (0:ℚ) < 2 ^ (Int.log 2 q - 52) := zpow_pos (by norm_num) _
  have h1 := rndNE_ge (q / 2 ^ (Int.log 2 q - 52))
  have h2 : (q / 2 ^ (Int.log 2 q - 52) - 1/2) * 2 ^ (Int.log 2 q - 52) ≤
      (rndNE (q / 2 ^ (Int.log 2 q - 52)) : ℚ) * 2 ^ (Int.log 2 q - 52) :=
    mul_le_mul_of_nonneg_right h1 (le_of_lt hpow)
  have h3 : (q / 2 ^ (Int.log 2 q - 52) - 1/2) * 2 ^ (Int.log 2 q - 52)
      = q - 2 ^ (Int.log 2 q - 52) / 2 := by
    field_simp
    ring
  have h4 := zpow_log_sub_le q hq
  have h5 : (2:ℚ) ^ (Int.log 2 q - 52) / 2 ≤ q / 2 ^ (53:ℕ) := by
    rw [show ((2:ℚ) ^ (53:ℕ)) = 2 ^ (52:ℕ) * 2 by norm_num]
    rw [show q / (2 ^ (52:ℕ) * 2) = q / 2 ^ (52:ℕ) / 2 by ring]
    linarith
  linarith

theorem int_log_le_52 {x : ℚ} (hx : 0 < x) (hx2 : x < 2 ^ (53:ℕ)) :
    Int.log 2 x ≤ 52 := by
  have hx3 : x < ((2:ℕ):ℚ) ^ ((53:ℕ):ℤ) := by
    rw [zpow_natCast]
    push_cast
    exact hx2
  have h := (Int.lt_zpow_iff_log_lt (b := 2) (by norm_num) hx).mp hx3
  omega

/-- Integers below `2^53` are exactly representable: `roundDouble` fixes them. -/
theorem roundDouble_natCast_fix (N : Nat) (h1 : 0 < N) (h2 : (N:ℚ) < 2 ^ (53:ℕ)) :
    roundDouble (N:ℚ) = (N:ℚ) := by
  have hq : (0:ℚ) < N := by exact_mod_cast h1
  unfold roundDouble
  rw [if_neg (not_le.mpr hq)]
  have hL : Int.log 2 (N:ℚ) ≤ 52 := int_log_le_52 hq h2
  have hL0 : (0:ℤ) ≤ Int.log 2 (N:ℚ) :=
    (Int.zpow_le_iff_le_log (by norm_num) hq).mp
      (by rw [zpow_zero]; exact_mod_cast h1)
  set k : Nat := (52 - Int.log 2 (N:ℚ)).toNat with hk
  have hkz : ((k:ℕ):ℤ) = 52 - Int.log 2 (N:ℚ) := Int.toNat_of_nonneg (by omega)
  have hpow : (2:ℚ) ^ (Int.log 2 (N:ℚ) - 52) = ((2:ℚ) ^ k)⁻¹ := by
    rw [show Int.log 2 (N:ℚ) - 52 = -((k:ℕ):ℤ) by omega]
    rw [zpow_neg, zpow_natCast]
  rw [hpow]
  have hs : (N:ℚ) / ((2:ℚ) ^ k)⁻¹ = ((N * 2 ^ k : ℕ) : ℚ) := by
    push_cast
    field_simp
  rw [hs]
  have hrnd : rndNE ((N * 2 ^ k : ℕ) : ℚ) = ((N * 2 ^ k : ℕ) : ℤ) := by
    rw [show ((N * 2 ^ k : ℕ) : ℚ) = (((N * 2 ^ k : ℕ) : ℤ) : ℚ) by push_cast; ring]
    exact rndNE_intCast _
  rw [hrnd]
  push_cast
  field_simp

/-- A positive integer lower bound survives `roundDouble`: the rounded value is a
multiple of the scale `2^e` with `e ≤ 0`, so it cannot land strictly between
`N - 2^e` and `N`. -/
theorem roundDouble_ge_nat (N : Nat) (x : ℚ) (h1 : 0 < N) (hx : (N:ℚ) ≤ x)
    (hx2 : x < 2 ^ (53:ℕ)) : (N:ℚ) ≤ roundDouble x := by
  have hq : (0:ℚ) < x := lt_of_lt_of_le (by exact_mod_cast h1) hx
  unfold roundDouble
  rw [if_neg (not_le.mpr hq)]
  have hL : Int.log 2 x ≤ 52 := int_log_le_52 hq hx2
  have hL0 : (0:ℤ) ≤ Int.log 2 x :=
    (Int.zpow_le_iff_le_log (by norm_num) hq).mp
      (by rw [zpow_zero]; exact le_trans (by exact_mod_cast h1) hx)
  set k : Nat := (52 - Int.log 2 x).toNat with hk
  have hkz : ((k:ℕ):ℤ) = 52 - Int.log 2 x := Int.toNat_of_nonneg (by omega)
  have hpow : (2:ℚ) ^ (Int.log 2 x - 52) = ((2:ℚ) ^ k)⁻¹ := by
    rw [show Int.log 2 x - 52 = -((k:ℕ):ℤ) by omega]
    rw [zpow_neg, zpow_natCast]
  rw [hpow]
  have hs : x / ((2:ℚ) ^ k)⁻¹ = x * 2 ^ k := by field_simp
  rw [hs]
  have hk0 : (0:ℚ) < 2 ^ k := by positivity
  have hZ : ((N * 2 ^ k : ℕ) : ℤ) ≤ rndNE (x * 2 ^ k) := by
    have hlt : (((N * 2 ^ k : ℕ) : ℤ) : ℚ) - 1 < (rndNE (x * 2 ^ k) : ℚ) := by
      have hge := rndNE_ge (x * 2 ^ k)
      have hxk : (N:ℚ) * 2 ^ k ≤ x * 2 ^ k :=
        mul_le_mul_of_nonneg_right hx (le_of_lt hk0)
      push_cast
      push_cast at hxk
      linarith
    have hc2 : (((N * 2 ^ k : ℕ) : ℤ) : ℚ) < (rndNE (x * 2 ^ k) : ℚ) + 1 := by
      push_cast at hlt ⊢
      linarith
    have hc3 : ((N * 2 ^ k : ℕ) : ℤ) < rndNE (x * 2 ^ k) + 1 := by exact_mod_cast hc2
    omega
  have hZq : ((N * 2 ^ k : ℕ) : ℚ) ≤ (rndNE (x * 2 ^ k) : ℚ) := by exact_mod_cast hZ
  rw [show ((rndNE (x * 2 ^ k) : ℚ) * ((2:ℚ) ^ k)⁻¹)
      = (rndNE (x * 2 ^ k) : ℚ) / 2 ^ k by ring]
  rw [show ((N:ℚ)) = ((N:ℚ) * 2 ^ k) / 2 ^ k by field_simp]
  apply div_le_div_of_nonneg_right ?_ (le_of_lt hk0)
  push_cast at hZq ⊢
  linarith

/-- The binary64 computation `min(128000, int(bitrate * 0.1))` agrees with the
exact `min(128000, ⌊b / 10⌋)` for every positive integer bitrate: below the cap
the product rounds to within `(m, m+1)` of the true quotient, and above it both
sides saturate at 128000. -/
theorem estimatedAudioShare_eq (b : Nat) (hb : 0 < b) :
    estimatedAudioShare b = min 128000 (b / 10) := by
  have hf01pos : (0:ℚ) < fl01 := by norm_num [fl01]
  have hf01ge : (1:ℚ)/10 ≤ fl01 := by norm_num [fl01]
  have hfl : fl01 = (1 + 1/2^(54:ℕ))/10 := by norm_num [fl01]
  by_cases hsmall : b < 1280010
  · have hb53 : (b:ℚ) < 2 ^ (53:ℕ) := by
      have h2 : (b:ℚ) < 1280010 := by exact_mod_cast hsmall
      have h3 : (1280010:ℚ) < 2 ^ (53:ℕ) := by norm_num
      linarith
    have hfix : pyFloatOfNat b = (b:ℚ) := roundDouble_natCast_fix b hb hb53
    set m := b / 10 with hmdef
    set r := b % 10 with hrdef
    have hbmr : b = 10 * m + r := by omega
    have hr9 : r ≤ 9 := by omega
    have hm128 : m ≤ 128000 := by omega
    have hmq : (m:ℚ) ≤ 128000 := by exact_mod_cast hm128
    have hrq9 : (r:ℚ) ≤ 9 := by exact_mod_cast hr9
    have hrq0 : (0:ℚ) ≤ (r:ℚ) := by positivity
    have hxval : (b:ℚ) * fl01 = ((m:ℚ) + (r:ℚ)/10) * (1 + 1/2^(54:ℕ)) := by
      have hbq : (b:ℚ) = 10 * (m:ℚ) + (r:ℚ) := by exact_mod_cast hbmr
      rw [hbq, hfl]
      field_simp
      ring
    have hxpos : (0:ℚ) < (b:ℚ) * fl01 := by
      have : (0:ℚ) < (b:ℚ) := by exact_mod_cast hb
      positivity
    have hXle := roundDouble_le ((b:ℚ) * fl01) hxpos
    have hXge := roundDouble_ge ((b:ℚ) * fl01) hxpos
    rw [hxval] at hXle hXge
    have hupper : roundDouble ((b:ℚ) * fl01) < (m:ℚ) + 1 := by
      rw [hxval]
      linarith
    have hlower : (m:ℚ) ≤ roundDouble ((b:ℚ) * fl01) := by
      by_cases hr0 : r = 0
      · have hm1 : 0 < m := by omega
        apply roundDouble_ge_nat m ((b:ℚ) * fl01) hm1
        · rw [hxval, hr0]
          push_cast
          nlinarith [hmq]
        · rw [hxval]
          have h53 : ((m:ℚ) + (r:ℚ)/10) * (1 + 1/2^(54:ℕ)) < 2 ^ (53:ℕ) := by
            nlinarith [hmq, hrq9]
          exact h53
      · have hr1 : (1:ℚ) ≤ (r:ℚ) := by
          have : 1 ≤ r := by omega
          exact_mod_cast this
        rw [hxval]
        linarith
    have hfloor : ⌊roundDouble ((b:ℚ) * fl01)⌋ = (m:ℤ) := by
      rw [Int.floor_eq_iff]
      constructor
      · push_cast
        exact hlower
      · push_cast
        exact hupper
    unfold estimatedAudioShare pyMulFl01
    rw [hfix, hfloor]
    simp
  · have hbig : 1280010 ≤ b := by omega
    have hbq : (1280010:ℚ) ≤ (b:ℚ) := by exact_mod_cast hbig
    have hbpos : (0:ℚ) < (b:ℚ) := by linarith
    have hB := roundDouble_ge (b:ℚ) hbpos
    have hBpos : (0:ℚ) < pyFloatOfNat b := by
      unfold pyFloatOfNat
      nlinarith
    have hxge : ((b:ℚ) - (b:ℚ)/2^(53:ℕ)) * fl01 ≤ pyFloatOfNat b * fl01 := by
      unfold pyFloatOfNat
      exact mul_le_mul_of_nonneg_right hB (le_of_lt hf01pos)
    have hxpos : (0:ℚ) < pyFloatOfNat b * fl01 := by positivity
    have hXge := roundDouble_ge (pyFloatOfNat b * fl01) hxpos
    have hXbig : (128000:ℚ) < roundDouble (pyFloatOfNat b * fl01) := by
      have hstep : ((b:ℚ) - (b:ℚ)/2^(53:ℕ)) * (1/10) ≤ pyFloatOfNat b * fl01 := by
        have hnn : (0:ℚ) ≤ (b:ℚ) - (b:ℚ)/2^(53:ℕ) := by
          nlinarith
        calc ((b:ℚ) - (b:ℚ)/2^(53:ℕ)) * (1/10)
            ≤ ((b:ℚ) - (b:ℚ)/2^(53:ℕ)) * fl01 := mul_le_mul_of_nonneg_left hf01ge hnn
          _ ≤ pyFloatOfNat b * fl01 := hxge
      nlinarith [hstep, hXge, hbq]
    have hfloor : (128000:ℤ) ≤ ⌊roundDouble (pyFloatOfNat b * fl01)⌋ := by
      rw [Int.le_floor]
      push_cast
      linarith
    have htoNat : 128000 ≤ ⌊roundDouble (pyFloatOfNat b * fl01)⌋.toNat := by omega
    unfold estimatedAudioShare pyMulFl01
    rw [min_eq_left htoNat, min_eq_left (show 128000 ≤ b / 10 by omega)]

/-- C9: for a combined (audio+video) raw format with aggregate bitrate `b > 0`,
`_parse_format` assigns `audio_bitrate = min(128000, int(b * 0.1))`, which
equals the exact `min(128000, ⌊0.1 * b⌋) = min(128000, b / 10)` for every `b`
despite the binary64 arithmetic, and `video_bitrate = b - audio_bitrate`, so
the two shares always sum exactly to the aggregate. -/
theorem parse_format_bitrate_split (b : Nat) (hb : 0 < b) :
    parseBitrates true true b = (min 128000 (b / 10), b - min 128000 (b / 10)) ∧
    (parseBitrates true true b).1 + (parseBitrates true true b).2 = b := by
  have hest := estimatedAudioShare_eq b hb
  have hmin : min 128000 (b / 10) ≤ b :=
    le_trans (min_le_right _ _) (Nat.div_le_self b 10)
  have hpb : parseBitrates true true b
      = (estimatedAudioShare b, b - estimatedAudioShare b) := by
    unfold parseBitrates
    rw [if_neg (by simp), if_neg (by simp), if_pos ⟨by simp, by simp, hb⟩]
  rw [hpb, hest]
  refine ⟨rfl, ?_⟩
  simp
  omega

/-- C9 witness: bitrate 1000000 splits as 100000 audio + 900000 video. -/
theorem parse_format_bitrate_split_witness :
    parseBitrates true true 1000000
      = (min 128000 (1000000 / 10), 1000000 - min 128000 (1000000 / 10)) ∧
    (parseBitrates true true 1000000).1 + (parseBitrates true true 1000000).2
      = 1000000 :=
  parse_format_bitrate_split 1000000 (by decide)

end SktDl
